import Mathlib

/-
A shallow embedding of the OTL outline-file tool (src/main.rs): the binary
decoder, tree builder, renderers, encoder, validator and diff engine,
together with theorems relating them to the specification.

Modelling conventions:
* Rust byte buffers (Vec<u8>, &[u8]) are List Nat with entries < 256.
* Rust Strings are List Nat of Unicode scalar values (one entry per char).
* i16/i32 values are Lean Int; the wrapping casts the source performs are
  written out explicitly.
* Fallible code returns Option / ParseResult.  The slice access buf[k+5]
  in parse_otl, which the source performs without a preceding bounds
  check, is modelled by the ParseResult.oob outcome.
* The eprintln diagnostics of validate are modelled as a returned list of
  Warning values, in emission order; other printed output is a List Nat
  of scalar values.
-/

namespace Otl

/-- Attribute bit 0x80: record has note bytes. -/
def A_NOTE : Nat := 0x80

/-- Attribute bit 0x20: caret (selection) on this heading. -/
def A_CURSOR : Nat := 0x20

/-- Attribute bit 0x08: a later sibling exists at the same level. -/
def A_SIBFOLLOWS : Nat := 0x08

/-- Attribute bit 0x04: semantics under study (k/K display). -/
def A_HASKIDS : Nat := 0x04

/-- The optional 3-byte magic prefix. -/
def MAGIC : List Nat := [0x1a, 0x93, 0x1a]

/-- The optional 6-byte preamble following the magic. -/
def PREAMBLE : List Nat := [0xff, 0x00, 0xff, 0xff, 0xff, 0xff]

/-- First marker byte of an expanded record. -/
def M_EXPANDED : Nat := 0xff

/-- First marker byte of a collapsed record. -/
def M_COLLAPSED : Nat := 0xfe

/-- Guardrail: maximum heading byte length (1 MiB). -/
def MAX_TEXTLEN : Nat := 1048576

/-- Guardrail: maximum note byte length (u16 format maximum). -/
def MAX_NOTELEN : Nat := 0xFFFF

/-- The note-text encoding selector (--enc utf8|latin1|ascii).  Any other
string passed on the command line falls back to the utf8 branch in the
source; the selector itself is three-valued. -/
inductive Enc where
  | utf8
  | latin1
  | ascii
deriving DecidableEq, Repr

/-- Derived flags of a record (struct Flags). -/
structure Flags where
  has_note : Bool
  selected : Bool
  has_next_sibling : Bool
  has_child : Bool
deriving DecidableEq, Repr

/-- One decoded flat record (struct Rec). -/
structure Rec where
  text : List Nat
  delta : Int
  attr : Nat
  marker_u16 : Nat
  collapsed : Bool
  note : Option (List Nat)
  flags : Flags
  off_text : Nat
  len_text : Nat
  off_terminator : Nat
  off_attr : Nat
  off_marker : Nat
  off_delta : Nat
  off_note_len : Option Nat
  off_note : Option Nat
  note_len : Nat
deriving DecidableEq, Repr

/-- A default record, used only as the out-of-bounds fallback of indexed
accesses whose indices are in bounds in the source. -/
def defaultRec : Rec :=
  { text := [], delta := 0, attr := 0, marker_u16 := 0, collapsed := false,
    note := none, flags := ⟨false, false, false, false⟩,
    off_text := 0, len_text := 0, off_terminator := 0, off_attr := 0,
    off_marker := 0, off_delta := 0, off_note_len := none, off_note := none,
    note_len := 0 }

instance : Inhabited Rec := ⟨defaultRec⟩

/-- A tree node (struct Node). -/
inductive Node where
  | node (text : List Nat) (note : Option (List Nat)) (collapsed : Bool)
      (flags : Flags) (synthetic : Bool) (children : List Node)

/-- Heading text of a node. -/
def Node.text : Node → List Nat
  | .node t _ _ _ _ _ => t

/-- Note of a node. -/
def Node.note : Node → Option (List Nat)
  | .node _ no _ _ _ _ => no

/-- Collapsed flag of a node. -/
def Node.collapsed : Node → Bool
  | .node _ _ co _ _ _ => co

/-- Flags of a node. -/
def Node.flags : Node → Flags
  | .node _ _ _ fl _ _ => fl

/-- Synthetic marker of a node. -/
def Node.synthetic : Node → Bool
  | .node _ _ _ _ sy _ => sy

/-- Children of a node. -/
def Node.children : Node → List Node
  | .node _ _ _ _ _ ch => ch

/-- The synthetic root / filler node value (all-empty, synthetic). -/
def fillerNode : Node :=
  .node [] none false ⟨false, false, false, false⟩ true []

/-- Decode a UTF-8 continuation byte test (0x80..0xBF). -/
def utf8Cont (b : Nat) : Bool := decide (0x80 ≤ b ∧ b ≤ 0xBF)

/-- Admissible second byte of a 3-byte UTF-8 sequence headed by b. -/
def utf8Snd3 (b c : Nat) : Bool :=
  if b = 0xE0 then decide (0xA0 ≤ c ∧ c ≤ 0xBF)
  else if b = 0xED then decide (0x80 ≤ c ∧ c ≤ 0x9F)
  else utf8Cont c

/-- Admissible second byte of a 4-byte UTF-8 sequence headed by b. -/
def utf8Snd4 (b c : Nat) : Bool :=
  if b = 0xF0 then decide (0x90 ≤ c ∧ c ≤ 0xBF)
  else if b = 0xF4 then decide (0x80 ≤ c ∧ c ≤ 0x8F)
  else utf8Cont c

/-- Lossy UTF-8 decoding (String::from_utf8_lossy): bytes to scalar
values, replacing each maximal invalid subpart by U+FFFD. -/
def utf8Lossy : List Nat → List Nat
  | [] => []
  | b :: rest =>
    if b < 0x80 then b :: utf8Lossy rest
    else if 0xC2 ≤ b ∧ b ≤ 0xDF then
      match rest with
      | [] => [0xFFFD]
      | c :: r2 =>
        if utf8Cont c then ((b - 0xC0) * 64 + (c - 0x80)) :: utf8Lossy r2
        else 0xFFFD :: utf8Lossy (c :: r2)
    else if 0xE0 ≤ b ∧ b ≤ 0xEF then
      match rest with
      | [] => [0xFFFD]
      | c :: r2 =>
        if utf8Snd3 b c then
          match r2 with
          | [] => [0xFFFD]
          | d :: r3 =>
            if utf8Cont d then
              ((b - 0xE0) * 4096 + (c - 0x80) * 64 + (d - 0x80)) :: utf8Lossy r3
            else 0xFFFD :: utf8Lossy (d :: r3)
        else 0xFFFD :: utf8Lossy (c :: r2)
    else if 0xF0 ≤ b ∧ b ≤ 0xF4 then
      match rest with
      | [] => [0xFFFD]
      | c :: r2 =>
        if utf8Snd4 b c then
          match r2 with
          | [] => [0xFFFD]
          | d :: r3 =>
            if utf8Cont d then
              match r3 with
              | [] => [0xFFFD]
              | e :: r4 =>
                if utf8Cont e then
                  ((b - 0xF0) * 262144 + (c - 0x80) * 4096 + (d - 0x80) * 64
                    + (e - 0x80)) :: utf8Lossy r4
                else 0xFFFD :: utf8Lossy (e :: r4)
            else 0xFFFD :: utf8Lossy (d :: r3)
        else 0xFFFD :: utf8Lossy (c :: r2)
    else 0xFFFD :: utf8Lossy rest

/-- UTF-8 encoding of one scalar value (str::as_bytes, per char). -/
def utf8EncChar (c : Nat) : List Nat :=
  if c < 0x80 then [c]
  else if c < 0x800 then [0xC0 + c / 64, 0x80 + c % 64]
  else if c < 0x10000 then
    [0xE0 + c / 4096, 0x80 + c / 64 % 64, 0x80 + c % 64]
  else
    [0xF0 + c / 262144, 0x80 + c / 4096 % 64, 0x80 + c / 64 % 64,
      0x80 + c % 64]

/-- UTF-8 byte serialization of a string (str::as_bytes). -/
def utf8Bytes (s : List Nat) : List Nat := s.flatMap utf8EncChar

/-- fn decode_note: note bytes to a string, per encoding.  latin1 maps
each byte to the equal code point; ascii keeps the low 7 bits; utf8 is
the lossy decode (also the fallback for unknown --enc values). -/
def decode_note (bytes : List Nat) (enc : Enc) : List Nat :=
  match enc with
  | .utf8 => utf8Lossy bytes
  | .latin1 => bytes
  | .ascii => bytes.map (fun b => b &&& 0x7f)

/-- fn decode_heading: each byte's low 7 bits become one character, and a
high bit additionally appends a literal space.  Independent of the note
encoding (it takes none). -/
def decode_heading : List Nat → List Nat
  | [] => []
  | b :: rest =>
    (b &&& 0x7f) ::
      (if b &&& 0x80 ≠ 0 then 32 :: decode_heading rest else decode_heading rest)

/-- Signed 16-bit value from two little-endian bytes. -/
def i16val (lo hi : Nat) : Int :=
  let v : Nat := lo + 256 * hi
  if v < 32768 then (v : Int) else (v : Int) - 65536

/-- Derived Flags from a raw attribute byte. -/
def mkFlags (attr : Nat) : Flags :=
  { has_note := attr &&& A_NOTE != 0,
    selected := attr &&& A_CURSOR != 0,
    has_next_sibling := attr &&& A_SIBFOLLOWS != 0,
    has_child := attr &&& A_HASKIDS != 0 }

/-- Decode failure classification (io::Error messages of parse_otl). -/
inductive PErr where
  | unterminated
  | truncatedHeader
  | headingTooLarge
  | truncatedNoteLen
  | noteTooLarge
  | truncatedNoteBytes
deriving DecidableEq, Repr

/-- Outcome of parse_otl.  ok/err mirror the Rust Result; oob marks the
unchecked slice access buf[k+5]; outOfFuel is the artefact of the fuelled
loop and is never returned when the fuel exceeds the buffer length. -/
inductive ParseResult where
  | ok (recs : List Rec)
  | err (e : PErr)
  | oob
  | outOfFuel
deriving DecidableEq, Repr

/-- Offset of the first 0xFF byte of a list. -/
def findFF : List Nat → Option Nat
  | [] => none
  | b :: rest => if b = 0xff then some 0 else (findFF rest).map (fun j => j + 1)

/-- The terminator scan of fn parse_otl: the absolute position of the
first 0xFF byte at or after k (the source's while-increment loop). -/
def findTerm (buf : List Nat) (k : Nat) : Option Nat :=
  (findFF (buf.drop k)).map (fun j => j + k)

/-- The decode loop of fn parse_otl, one fuel unit per iteration. -/
def parseLoop (buf : List Nat) (enc : Enc) : Nat → Nat → List Rec → ParseResult
  | 0, _, _ => ParseResult.outOfFuel
  | fuel + 1, i, acc =>
    if i < buf.length then
      if i = buf.length - 1 ∧ buf.getD i 0 = 0x1a then ParseResult.ok acc.reverse
      else if i + 2 < buf.length ∧ buf.getD i 0 = 0xff ∧ buf.getD (i + 1) 0 = 0xff
          ∧ buf.getD (i + 2) 0 = 0x1a then ParseResult.ok acc.reverse
      else
        match findTerm buf i with
        | none => ParseResult.err PErr.unterminated
        | some k =>
          if k + 4 ≥ buf.length then ParseResult.err PErr.truncatedHeader
          else
            let attr := buf.getD (k + 1) 0
            let mark1 := buf.getD (k + 2) 0
            let mark2 := buf.getD (k + 3) 0
            if mark2 ≠ 0xff ∨ (mark1 ≠ M_EXPANDED ∧ mark1 ≠ M_COLLAPSED) then
              parseLoop buf enc fuel (k + 1) acc
            else if k + 5 < buf.length then
              let text := decode_heading ((buf.drop i).take (k - i))
              let marker_u16 := mark1 + 256 * mark2
              let delta := i16val (buf.getD (k + 4) 0) (buf.getD (k + 5) 0)
              if k - i > MAX_TEXTLEN then ParseResult.err PErr.headingTooLarge
              else if attr &&& A_NOTE ≠ 0 then
                if k + 6 + 2 > buf.length then ParseResult.err PErr.truncatedNoteLen
                else
                  let nlen := buf.getD (k + 6) 0 + 256 * buf.getD (k + 7) 0
                  if nlen > MAX_NOTELEN then ParseResult.err PErr.noteTooLarge
                  else if k + 8 + nlen > buf.length then
                    ParseResult.err PErr.truncatedNoteBytes
                  else
                    parseLoop buf enc fuel (k + 8 + nlen)
                      ({ text := text, delta := delta, attr := attr,
                         marker_u16 := marker_u16,
                         collapsed := marker_u16 == 0xFFFE,
                         note := some (decode_note ((buf.drop (k + 8)).take nlen) enc),
                         flags := mkFlags attr,
                         off_text := i, len_text := k - i, off_terminator := k,
                         off_attr := k + 1, off_marker := k + 2, off_delta := k + 4,
                         off_note_len := some (k + 6), off_note := some (k + 8),
                         note_len := nlen } :: acc)
              else
                parseLoop buf enc fuel (k + 6)
                  ({ text := text, delta := delta, attr := attr,
                     marker_u16 := marker_u16,
                     collapsed := marker_u16 == 0xFFFE,
                     note := none, flags := mkFlags attr,
                     off_text := i, len_text := k - i, off_terminator := k,
                     off_attr := k + 1, off_marker := k + 2, off_delta := k + 4,
                     off_note_len := none, off_note := none,
                     note_len := 0 } :: acc)
            else ParseResult.oob
    else ParseResult.ok acc.reverse

/-- fn parse_otl: skip magic and preamble when present, then run the
decode loop.  The fuel buf.length + 1 always suffices because every
iteration either stops or advances the cursor. -/
def parse_otl (buf : List Nat) (enc : Enc) : ParseResult :=
  let i0 := if 3 ≤ buf.length ∧ buf.take 3 = MAGIC then 3 else 0
  let i1 := if i0 + 6 ≤ buf.length ∧ (buf.drop i0).take 6 = PREAMBLE then i0 + 6 else i0
  parseLoop buf enc (buf.length + 1) i1 []

/-- Indexed descent of fn push_child: walk the path, append the child to
the addressed node, and report the child's new index.  A missing index
(the source's .expect) yields none. -/
def insertAt : Node → List Nat → Node → Option (Node × Nat)
  | .node t no co fl sy ch, [], c => some (.node t no co fl sy (ch ++ [c]), ch.length)
  | .node t no co fl sy ch, i :: rest, c =>
    match ch[i]? with
    | none => none
    | some child =>
      match insertAt child rest c with
      | none => none
      | some (child2, idx) => some (.node t no co fl sy (ch.set i child2), idx)

/-- fn push_child: insert the child at the path and push its index. -/
def push_child (root : Node) (path : List Nat) (child : Node) : Option (Node × List Nat) :=
  match insertAt root path child with
  | none => none
  | some (root2, idx) => some (root2, path ++ [idx])

/-- The filler while-loop of fn build_tree: push n synthetic fillers,
each becoming the new current node. -/
def addFillers : Node → List Nat → Nat → Option (Node × List Nat)
  | root, path, 0 => some (root, path)
  | root, path, n + 1 =>
    match push_child root path fillerNode with
    | none => none
    | some (root2, path2) => addFillers root2 path2 n

/-- The real node built from one record in fn build_tree. -/
def nodeOfRec (r : Rec) : Node :=
  .node r.text r.note r.collapsed r.flags false []

/-- The per-record loop of fn build_tree.  The pop-while-loop
(path.pop() until len(path) <= level) is the prefix path.take. -/
def buildLoop : List Rec → Node → List Nat → Int → Option Node
  | [], root, _, _ => some root
  | r :: rest, root, path, level =>
    let l1 := level + r.delta
    let l2 := if l1 < 0 then 0 else l1
    let path2 := path.take l2.toNat
    match addFillers root path2 (l2.toNat - path2.length) with
    | none => none
    | some (root3, path3) =>
      match push_child root3 path3 (nodeOfRec r) with
      | none => none
      | some (root4, path4) => buildLoop rest root4 path4 l2

/-- fn build_tree: fold the records over a synthetic root; none models
the path-index .expect in push_child. -/
def build_tree (recs : List Rec) : Option (List Node) :=
  (buildLoop recs fillerNode [] 0).map Node.children

/-- Verification model of the builder state: the rightmost spine as a
root-first list of nodes, each stored without its in-progress last
child.  treeOf folds the spine back into one tree. -/
def treeOf : Node → List Node → Node
  | n, [] => n
  | .node t no co fl sy ch, m :: rest => .node t no co fl sy (ch ++ [treeOf m rest])

/-- Root reconstructed from a spine (empty spine gives the filler). -/
def spRoot : List Node → Node
  | [] => fillerNode
  | n :: rest => treeOf n rest

/-- The child-index path addressed by a spine. -/
def spPath : Node → List Node → List Nat
  | _, [] => []
  | .node _ _ _ _ _ ch, m :: rest => ch.length :: spPath m rest

/-- Pop the spine (merging tops into parents) down to length t; for
t ≤ 1 everything merges into the root. -/
def popToLen : List Node → Nat → List Node
  | [], _ => []
  | n :: rest, t =>
    if rest.length + 1 ≤ t then n :: rest
    else if t ≤ 1 then [treeOf n rest]
    else n :: popToLen rest (t - 1)

/-- Spine-based equivalent of the buildLoop. -/
def buildSpLoop : List Rec → List Node → Int → List Node × Int
  | [], sp, level => (sp, level)
  | r :: rest, sp, level =>
    let l1 := level + r.delta
    let l2 := if l1 < 0 then 0 else l1
    let sp2 := popToLen sp (l2.toNat + 1)
    let sp3 := sp2 ++ List.replicate (l2.toNat + 1 - sp2.length) fillerNode
    buildSpLoop rest (sp3 ++ [nodeOfRec r]) l2

/-- Spine-based builder; proven equal to build_tree. -/
def buildSp (recs : List Rec) : List Node :=
  (spRoot (buildSpLoop recs [fillerNode] 0).1).children

/-- str::replace of CRLF by LF, left to right. -/
def replaceCRLF : List Nat → List Nat
  | [] => []
  | 13 :: 10 :: rest => 10 :: replaceCRLF rest
  | c :: rest => c :: replaceCRLF rest

/-- str::split_inclusive at LF. -/
def splitNl : List Nat → List (List Nat)
  | [] => []
  | c :: rest =>
    match splitNl rest with
    | [] => [[c]]
    | l :: ls => if c = 10 then [c] :: l :: ls else (c :: l) :: ls

/-- The per-line map of str::lines: strip one trailing LF, and then one
trailing CR only when an LF was stripped. -/
def stripLineEnd (l : List Nat) : List Nat :=
  if l.getLast? = some 10 then
    let l2 := l.dropLast
    if l2.getLast? = some 13 then l2.dropLast else l2
  else l

/-- str::lines. -/
def linesR (s : List Nat) : List (List Nat) := (splitNl s).map stripLineEnd

/-- Scalar values of a Lean string literal (formatting helper). -/
def strC (s : String) : List Nat := s.toList.map Char.toNat

/-- The note block of fn render_plain_all at a given note indent depth. -/
def plainNote (note : List Nat) (depth : Nat) : List Nat :=
  (linesR (replaceCRLF note)).flatMap
    (fun line => List.replicate (depth * 2) 32 ++ line ++ [10])

/-- fn render_plain_all: depth-first, synthetic nodes transparent, the
collapsed flag ignored, indentation two spaces per depth. -/
def render_plain_all : List Node → Nat → List Nat
  | [], _ => []
  | .node t no _ _ syn ch :: rest, depth =>
    if syn then render_plain_all ch depth ++ render_plain_all rest depth
    else
      (List.replicate (depth * 2) 32 ++ t ++ [10])
        ++ (match no with
            | some s => plainNote s (depth + 1)
            | none => [])
        ++ render_plain_all ch (depth + 1) ++ render_plain_all rest depth

/-- fn escape_headline: escape backslash and double quote only. -/
def escape_headline (s : List Nat) : List Nat :=
  s.flatMap (fun c => if c = 92 then [92, 92] else if c = 34 then [92, 34] else [c])

/-- One position of fn fmt_attr_bits (mask = 1 <<< i). -/
def attrBitChars (attr : Nat) (show_cursor : Bool) (mask : Nat) : List Nat :=
  if mask = A_NOTE then (if attr &&& mask ≠ 0 then [78] else [110])
  else if mask = A_CURSOR then
    (if !show_cursor then [] else if attr &&& mask ≠ 0 then [67] else [99])
  else if mask = A_SIBFOLLOWS then (if attr &&& mask ≠ 0 then [83] else [115])
  else if mask = A_HASKIDS then (if attr &&& mask ≠ 0 then [75] else [107])
  else (if attr &&& mask ≠ 0 then [49] else [])

/-- fn fmt_attr_bits: bits 7 down to 0. -/
def fmt_attr_bits (attr : Nat) (show_cursor : Bool) : List Nat :=
  [128, 64, 32, 16, 8, 4, 2, 1].flatMap (attrBitChars attr show_cursor)

/-- One lowercase hex digit. -/
def hexDigit (d : Nat) : Nat := if d < 10 then 48 + d else 87 + d

/-- Four-digit lowercase hex of a u16 value. -/
def toHex4 (n : Nat) : List Nat :=
  [hexDigit (n / 4096 % 16), hexDigit (n / 256 % 16), hexDigit (n / 16 % 16),
    hexDigit (n % 16)]

/-- fn mark_field: the marker word as i16 is -1 (expanded) or -2
(collapsed), else 4-digit hex. -/
def mark_field (u : Nat) : List Nat :=
  if u = 0xFFFF then strC "-1:+"
  else if u = 0xFFFE then strC "-2:-"
  else strC "0x" ++ toHex4 u

/-- fn delta_field: signed single digit with sign within -9..9, else the
4-digit hex of the unsigned bit pattern. -/
def delta_field (d : Int) : List Nat :=
  if -9 ≤ d ∧ d ≤ 9 then (if d < 0 then [45] else [43]) ++ [48 + d.natAbs]
  else strC "0x" ++ toHex4 (d.emod 65536).toNat

/-- One record's canonical dump (body of the fn render_canon loop). -/
def canonRec (r : Rec) (show_cursor : Bool) : List Nat :=
  fmt_attr_bits r.attr show_cursor
    ++ strC " mark=" ++ mark_field r.marker_u16
    ++ strC " delta=" ++ delta_field r.delta
    ++ strC " textLen=" ++ toHex4 (r.len_text % 65536)
    ++ strC " \"" ++ escape_headline r.text ++ strC "\"" ++ [10]
    ++ (if r.flags.has_note then
          strC "noteLen=" ++ toHex4 (r.note_len % 65536) ++ [10]
            ++ strC "note" ++ [10]
            ++ (let nn := replaceCRLF (r.note.getD []);
                nn ++ (if nn.getLast? = some 10 then [] else [10]))
            ++ strC "/note" ++ [10]
        else [])

/-- fn render_canon. -/
def render_canon (recs : List Rec) (show_cursor : Bool) : List Nat :=
  recs.flatMap (fun r => canonRec r show_cursor)

/-- The clamped running level scan of fn validate / fn build_tree. -/
def levelsAux : Int → List Rec → List Int
  | _, [] => []
  | lvl, r :: rest =>
    let l1 := lvl + r.delta
    let l2 := if l1 < 0 then 0 else l1
    l2 :: levelsAux l2 rest

/-- Per-record clamped levels, in file order. -/
def levelsOf (recs : List Rec) : List Int := levelsAux 0 recs

/-- The inner sibling scan of fn validate: a later level equal to mine
before one below mine. -/
def laterSame (my : Int) : List Int → Bool
  | [] => false
  | l :: rest => if l < my then false else if l = my then true else laterSame my rest

/-- One eprintln diagnostic of fn validate. -/
inductive Warning where
  | sibling (idx : Nat) (attrBit : Bool) (expected : Bool) (offAttr : Nat)
  | childBit (idx : Nat) (attrBit : Bool) (expected : Bool) (offAttr : Nat)
  | unknownBits (idx : Nat) (bits : Nat) (offAttr : Nat)
deriving DecidableEq, Repr

/-- The warnings fn validate emits for record i, in emission order:
the sibling check, the optional 0x04 hypothesis check, and the unknown
attribute bits check (known mask 0xAC, complement 0x53). -/
def warningsAt (recs : List Rec) (levels : List Int) (assume_child_bit : Bool)
    (i : Nat) : List Warning :=
  (if laterSame (levels.getD i 0) (levels.drop (i + 1))
      ≠ ((recs.getD i defaultRec).attr &&& A_SIBFOLLOWS != 0) then
      [Warning.sibling i ((recs.getD i defaultRec).attr &&& A_SIBFOLLOWS != 0)
        (laterSame (levels.getD i 0) (levels.drop (i + 1)))
        (recs.getD i defaultRec).off_attr]
    else [])
  ++ (if assume_child_bit then
        (if decide (i + 1 < recs.length ∧ levels.getD i 0 < levels.getD (i + 1) 0)
            ≠ ((recs.getD i defaultRec).attr &&& A_HASKIDS != 0) then
          [Warning.childBit i ((recs.getD i defaultRec).attr &&& A_HASKIDS != 0)
            (decide (i + 1 < recs.length ∧ levels.getD i 0 < levels.getD (i + 1) 0))
            (recs.getD i defaultRec).off_attr]
        else [])
      else [])
  ++ (if (recs.getD i defaultRec).attr
        &&& (0xFF ^^^ (A_NOTE ||| A_CURSOR ||| A_SIBFOLLOWS ||| A_HASKIDS)) ≠ 0 then
        [Warning.unknownBits i
          ((recs.getD i defaultRec).attr
            &&& (0xFF ^^^ (A_NOTE ||| A_CURSOR ||| A_SIBFOLLOWS ||| A_HASKIDS)))
          (recs.getD i defaultRec).off_attr]
      else [])

/-- fn validate: all warnings, record by record. -/
def validate (recs : List Rec) (assume_child_bit : Bool) : List Warning :=
  (List.range recs.length).flatMap (warningsAt recs (levelsOf recs) assume_child_bit)

/-- fn encode_heading_from_text: 7-bit best effort, non-ASCII becomes
a question mark; no high-bit space encoding. -/
def encode_heading_from_text (text : List Nat) : List Nat :=
  text.map (fun c => (if c < 0x80 then c else 0x3f) &&& 0x7f)

/-- fn encode_note_bytes per encoding (ascii goes through the string's
UTF-8 bytes, as note.bytes() does). -/
def encode_note_bytes (note : List Nat) (enc : Enc) : List Nat :=
  match enc with
  | .utf8 => utf8Bytes note
  | .latin1 => note.map (fun c => if c ≤ 0xFF then c else 0x3f)
  | .ascii => (utf8Bytes note).map (fun b => b &&& 0x7f)

/-- struct Flat of fn serialize_tree_to_otl. -/
structure EFlat where
  level : Nat
  attr : Nat
  marker_first : Nat
  text : List Nat
  note : Option (List Nat)
deriving DecidableEq, Repr

/-- fn walk of serialize_tree_to_otl: depth-first flat list; synthetic
nodes are spliced transparently at the same level; the sibling bit is
set when the node is not last in its sibling list. -/
def walkFlats : List Node → Nat → Enc → List EFlat
  | [], _, _ => []
  | .node t no co fl syn ch :: rest, level, enc =>
    if syn then walkFlats ch level enc ++ walkFlats rest level enc
    else
      { level := level,
        attr := (if no.isSome then A_NOTE else 0)
          ||| (if fl.selected then A_CURSOR else 0)
          ||| (if rest.isEmpty then 0 else A_SIBFOLLOWS),
        marker_first := if co then M_COLLAPSED else M_EXPANDED,
        text := encode_heading_from_text t,
        note := no.map (fun s => encode_note_bytes s enc) }
        :: walkFlats ch (level + 1) enc ++ walkFlats rest level enc

/-- Little-endian bytes of a u16 value. -/
def u16le (n : Nat) : List Nat := [n % 256, n / 256 % 256]

/-- The wrapping cast of an isize difference to i16. -/
def toI16 (x : Int) : Int := (x + 32768) % 65536 - 32768

/-- i16::to_le_bytes. -/
def i16le (d : Int) : List Nat := u16le (d % 65536).toNat

/-- The bytes one flat record contributes in serialize_tree_to_otl
(u16::try_from(note len).unwrap_or(u16::MAX) truncates the note). -/
def recBytes (f : EFlat) (delta : Int) : List Nat :=
  f.text ++ [0xFF, f.attr, f.marker_first, 0xFF] ++ i16le delta
    ++ (match f.note with
        | some nb =>
          let nlen := if nb.length ≤ 0xFFFF then nb.length else 0xFFFF
          u16le nlen ++ nb.take nlen
        | none => [])

/-- The record region of serialize_tree_to_otl, threading prev_level. -/
def flatsBytes : List EFlat → Int → List Nat
  | [], _ => []
  | f :: rest, prev =>
    recBytes f (toI16 ((f.level : Int) - prev)) ++ flatsBytes rest (f.level : Int)

/-- fn serialize_tree_to_otl: magic, preamble, records, EOF sentinel. -/
def serialize_tree_to_otl (nodes : List Node) (enc : Enc) : List Nat :=
  MAGIC ++ PREAMBLE ++ flatsBytes (walkFlats nodes 0 enc) 0 ++ [0x1a]

/-- fn diff_two_recs: one change line per differing field. -/
def diff_two_recs (prev curr : Rec) (show_cursor : Bool) : List (List Nat) :=
  (if prev.attr ≠ curr.attr then
      [strC "  attr: " ++ fmt_attr_bits prev.attr show_cursor ++ strC " -> "
        ++ fmt_attr_bits curr.attr show_cursor]
    else [])
  ++ (if prev.marker_u16 ≠ curr.marker_u16 then
        [strC "  mark: " ++ mark_field prev.marker_u16 ++ strC " -> "
          ++ mark_field curr.marker_u16]
      else [])
  ++ (if prev.delta ≠ curr.delta then
        [strC "  delta: " ++ delta_field prev.delta ++ strC " -> "
          ++ delta_field curr.delta]
      else [])
  ++ (if prev.len_text ≠ curr.len_text then
        [strC "  textLen: " ++ toHex4 (prev.len_text % 65536) ++ strC " -> "
          ++ toHex4 (curr.len_text % 65536)]
      else [])
  ++ (if prev.note_len ≠ curr.note_len then
        [strC "  noteLen: " ++ toHex4 (prev.note_len % 65536) ++ strC " -> "
          ++ toHex4 (curr.note_len % 65536)]
      else [])
  ++ (if prev.note.getD [] ≠ curr.note.getD [] then
        [if prev.note_len = curr.note_len then strC "  note: (text changed)"
         else strC "  note: (length and text changed)"]
      else [])

/-- The inner match scan of fn diff_mode: first index from j whose flag
is unset and whose text equals t. -/
def findMatchFrom : List Rec → List Bool → List Nat → Nat → Option Nat
  | [], _, _, _ => none
  | p :: ps, used, t, j =>
    if used.getD j false = false ∧ p.text = t then some j
    else findMatchFrom ps used t (j + 1)

/-- The per-current-record loop of fn diff_mode, returning the output so
far and the used flags. -/
def diffLoop (prev : List Rec) (show_cursor : Bool) :
    List Rec → List Bool → List Nat → List Nat × List Bool
  | [], used, out => (out, used)
  | c :: cs, used, out =>
    match findMatchFrom prev used c.text 0 with
    | some j =>
      let changes := diff_two_recs (prev.getD j defaultRec) c show_cursor
      let out2 := out ++
        (if changes.isEmpty then []
         else strC "~ \"" ++ c.text ++ strC "\"" ++ [10]
           ++ changes.flatMap (fun line => line ++ [10]))
      diffLoop prev show_cursor cs (used.set j true) out2
    | none =>
      diffLoop prev show_cursor cs used
        (out ++ (strC "+ \"" ++ c.text ++ strC "\"" ++ [10]))

/-- The removed-records epilogue of fn diff_mode. -/
def removedLines (prev : List Rec) (used : List Bool) : List Nat :=
  (List.range prev.length).flatMap
    (fun j => if used.getD j false then []
      else strC "- \"" ++ (prev.getD j defaultRec).text ++ strC "\"" ++ [10])

/-- fn diff_mode: greedy text matching, then removals. -/
def diff_mode (prev curr : List Rec) (show_cursor : Bool) : List Nat :=
  let res := diffLoop prev show_cursor curr (List.replicate prev.length false) []
  res.1 ++ removedLines prev res.2

/-- The child-index path of a spine given as one list (root first). -/
def spPathL : List Node → List Nat
  | [] => []
  | n :: rest => spPath n rest

/-- Pre-order (synthetic flag, depth) pairs of a forest; the forest
returned by build_tree sits at depth 0, one step per tree level,
synthetic fillers included. -/
def depthsPre : List Node → Nat → List (Bool × Nat)
  | [], _ => []
  | .node _ _ _ _ syn ch :: rest, d =>
    (syn, d) :: (depthsPre ch (d + 1) ++ depthsPre rest d)

/-- Keep the depths of the real entries of a (synthetic, depth) list. -/
def realsOf (l : List (Bool × Nat)) : List Nat :=
  l.filterMap (fun p => if p.1 then none else some p.2)

/-- Depths of the real (non-synthetic) nodes of a forest, in pre-order
(= record order for built trees). -/
def realDepths (nodes : List Node) : List Nat :=
  realsOf (depthsPre nodes 0)

/-- Witness records for the depth invariant: headings A B C D with
deltas 0, +2, -1, 0 (the spec's level-jump scenario). -/
def c3recs : List Rec :=
  [{ defaultRec with text := [65], delta := 0 },
   { defaultRec with text := [66], delta := 2 },
   { defaultRec with text := [67], delta := -1 },
   { defaultRec with text := [68], delta := 0 }]

/-- The forest built from c3recs: A holding a synthetic filler (with B
below), then C, then D. -/
def c3tree : List Node :=
  [.node [65] none false ⟨false, false, false, false⟩ false
    [.node [] none false ⟨false, false, false, false⟩ true
      [.node [66] none false ⟨false, false, false, false⟩ false []],
     .node [67] none false ⟨false, false, false, false⟩ false [],
     .node [68] none false ⟨false, false, false, false⟩ false []]]

/-- True for the sibling-mismatch warning of fn validate. -/
def Warning.isSibling : Warning → Bool
  | .sibling _ _ _ _ => true
  | _ => false

/-- Specification-side sibling property (section 4.5 of the spec): a
later record exists at the same computed depth before any record whose
depth drops below record i's depth. -/
def SibSpec (levels : List Int) (i : Nat) : Prop :=
  ∃ j, j < levels.length ∧ i < j ∧ levels.getD j 0 = levels.getD i 0 ∧
    ∀ m, m < j → i < m → levels.getD i 0 < levels.getD m 0

/-- Witness records for the sibling-bit property: two records at level
0, the first carrying the sibling-follows bit. -/
def c6recs : List Rec :=
  [{ defaultRec with attr := 0x08, flags := mkFlags 0x08 }, defaultRec]

/-- Set the selection bit of a record's attribute byte. -/
def setCursor (r : Rec) : Rec := { r with attr := r.attr ||| A_CURSOR }

/-- Number of records carrying the selection bit. -/
def countSelected (recs : List Rec) : Nat :=
  recs.countP (fun r => r.attr &&& A_CURSOR != 0)

/-- Two records at the same level, both selected, with structurally
correct sibling bits (first 0x28 = selected + sibling-follows, second
0x20 = selected): the Validator emits nothing for them. -/
def c4recs : List Rec :=
  [{ defaultRec with attr := 0x28, flags := mkFlags 0x28 },
   { defaultRec with attr := 0x20, flags := mkFlags 0x20 }]

/-- Byte buffer of the canonical-rendering scenario: record A (depth 0,
no note) then record B (depth 1, note bytes hello CR LF world). -/
def c5buf : List Nat :=
  MAGIC ++ PREAMBLE
    ++ ([65] ++ [0xFF, 0x00, 0xFF, 0xFF, 0x00, 0x00])
    ++ ([66] ++ [0xFF, 0x80, 0xFF, 0xFF, 0x01, 0x00]
        ++ [12, 0] ++ [104, 101, 108, 108, 111, 13, 10, 119, 111, 114, 108, 100])

/-- Record A as decoded from c5buf. -/
def c5A : Rec :=
  { text := [65], delta := 0, attr := 0, marker_u16 := 65535, collapsed := false,
    note := none, flags := mkFlags 0,
    off_text := 9, len_text := 1, off_terminator := 10, off_attr := 11,
    off_marker := 12, off_delta := 14, off_note_len := none, off_note := none,
    note_len := 0 }

/-- Record B as decoded from c5buf. -/
def c5B : Rec :=
  { text := [66], delta := 1, attr := 128, marker_u16 := 65535, collapsed := false,
    note := some [104, 101, 108, 108, 111, 13, 10, 119, 111, 114, 108, 100],
    flags := mkFlags 128,
    off_text := 16, len_text := 1, off_terminator := 17, off_attr := 18,
    off_marker := 19, off_delta := 21, off_note_len := some 23, off_note := some 25,
    note_len := 12 }

/-- The data render_plain_all reads from one real node: its spliced
level, heading text and note. -/
structure PFlat where
  level : Nat
  text : List Nat
  note : Option (List Nat)
deriving DecidableEq, Repr

/-- Spliced pre-order flats of a forest: synthetic nodes contribute
nothing and keep the level (exactly as render_plain_all and the
encoder's walk treat them); real nodes emit one flat and deepen. -/
def flatten : List Node → Nat → List PFlat
  | [], _ => []
  | .node t no _ _ syn ch :: rest, lvl =>
    if syn then flatten ch lvl ++ flatten rest lvl
    else ⟨lvl, t, no⟩ :: (flatten ch (lvl + 1) ++ flatten rest lvl)

/-- The PlainAll text of a flat list. -/
def plainOfFlats (l : List PFlat) : List Nat :=
  l.flatMap (fun f =>
    (List.replicate (f.level * 2) 32 ++ f.text ++ [10])
      ++ (match f.note with
          | some s => plainNote s (f.level + 1)
          | none => []))

/-- Count of real entries on a spine, as a Bool stack (true = real). -/
def countTrue (l : List Bool) : Nat := l.count true

/-- The real-depth machine: it mirrors the spine builder on a stack of
realness bits and records, per record, the spliced level (number of
real entries on the retained spine), heading and note. -/
def pflatsAux : List Bool → Int → List Rec → List PFlat
  | _, _, [] => []
  | bs, level, r :: rest =>
    let l1 := level + r.delta
    let l2 := if l1 < 0 then 0 else l1
    let bs2 := bs.take (l2.toNat + 1)
    let bs3 := bs2 ++ List.replicate (l2.toNat + 1 - bs2.length) false
    ⟨countTrue bs3, r.text, r.note⟩ :: pflatsAux (bs3 ++ [true]) l2 rest

/-- Spliced flats of a record sequence (proved equal to the flats of
the built forest). -/
def pflatsOf (recs : List Rec) : List PFlat := pflatsAux [false] 0 recs

/-- Adjacent-level discipline of spliced flats: each level climbs at
most one and drops at most 32768 from the previous one. -/
def StepsOK : Int → List PFlat → Prop
  | _, [] => True
  | prev, f :: rest =>
    (f.level : Int) ≤ prev + 1 ∧ prev - (f.level : Int) ≤ 32768
      ∧ StepsOK (f.level : Int) rest

/-- The record list re-decoded from serialized flats: same heading text
and note, and the delta is the wrapped level jump. -/
def Echo : Int → List PFlat → List Rec → Prop
  | _, [], rs => rs = []
  | prev, f :: fs, rs =>
    match rs with
    | [] => False
    | r :: rs2 =>
      r.text = f.text ∧ r.note = f.note
        ∧ r.delta = toI16 ((f.level : Int) - prev) ∧ Echo (f.level : Int) fs rs2

/-- The fields of a decoded record that the tree builder reads. -/
structure CoreRec where
  text : List Nat
  delta : Int
  note : Option (List Nat)
  collapsed : Bool
  flags : Flags
deriving DecidableEq, Repr

/-- Projection of a record to its builder-relevant fields. -/
def coreOf (r : Rec) : CoreRec :=
  ⟨r.text, r.delta, r.note, r.collapsed, r.flags⟩

/-- The cores the decoder recovers from a serialized flat list. -/
def coresFromFlats : List EFlat → Int → Enc → List CoreRec
  | [], _, _ => []
  | f :: rest, prev, enc =>
    { text := decode_heading f.text,
      delta := toI16 ((f.level : Int) - prev),
      note := f.note.map (fun nb => decode_note nb enc),
      collapsed := f.marker_first + 256 * 0xff == 0xFFFE,
      flags := mkFlags f.attr } :: coresFromFlats rest (f.level : Int) enc

/-- What the decoder needs of each serialized flat: no stray 0xFF in
the heading, the guard length respected, a valid marker, an attribute
byte that is never 0xFF and whose note bit reflects the note, and a
note that fits the 16-bit length field. -/
def EFlatWF (f : EFlat) : Prop :=
  (∀ b ∈ f.text, b ≠ 0xff) ∧ f.text.length ≤ MAX_TEXTLEN
    ∧ (f.marker_first = M_COLLAPSED ∨ f.marker_first = M_EXPANDED)
    ∧ f.attr ≠ 0xff
    ∧ ((f.attr &&& A_NOTE ≠ 0) ↔ f.note.isSome)
    ∧ (∀ nb, f.note = some nb → nb.length ≤ 0xFFFF)

/-- Round-trip property of a heading string under the encoder. -/
def TextRT (s : List Nat) : Prop :=
  decode_heading (encode_heading_from_text s) = s

/-- Round-trip property of a note string under the given encoding. -/
def NoteRT (enc : Enc) : Option (List Nat) → Prop
  | none => True
  | some s =>
    decode_note (encode_note_bytes s enc) enc = s
      ∧ (encode_note_bytes s enc).length ≤ 0xFFFF

/-- Records as the decoder produces them: round-tripping heading, a
round-tripping note and an in-range i16 delta. -/
def RecRT (enc : Enc) (r : Rec) : Prop :=
  TextRT r.text ∧ NoteRT enc r.note ∧ -32768 ≤ r.delta ∧ r.delta ≤ 32767

/-- Refinement model of the DiffEngine, written from the spec (section
4.6): scan previous from index j for the first not-yet-matched record
(matched holds the already-matched indices) with identical heading
text. -/
def firstUnmatched : List Rec → List Nat → List Nat → Nat → Option Nat
  | [], _, _, _ => none
  | p :: ps, matched, t, j =>
    if matched.contains j = false ∧ p.text = t then some j
    else firstUnmatched ps matched t (j + 1)

/-- Refinement model, from the spec: one change line per differing field
among attribute byte, marker word, delta, raw heading length, raw note
length and decoded note text; a note-text difference is summarized as
either text changed or length and text changed. -/
def specFieldLines (p c : Rec) (sc : Bool) : List (List Nat) :=
  [if p.attr ≠ c.attr then
      some (strC "  attr: " ++ fmt_attr_bits p.attr sc ++ strC " -> "
        ++ fmt_attr_bits c.attr sc)
    else none,
   if p.marker_u16 ≠ c.marker_u16 then
      some (strC "  mark: " ++ mark_field p.marker_u16 ++ strC " -> "
        ++ mark_field c.marker_u16)
    else none,
   if p.delta ≠ c.delta then
      some (strC "  delta: " ++ delta_field p.delta ++ strC " -> "
        ++ delta_field c.delta)
    else none,
   if p.len_text ≠ c.len_text then
      some (strC "  textLen: " ++ toHex4 (p.len_text % 65536) ++ strC " -> "
        ++ toHex4 (c.len_text % 65536))
    else none,
   if p.note_len ≠ c.note_len then
      some (strC "  noteLen: " ++ toHex4 (p.note_len % 65536) ++ strC " -> "
        ++ toHex4 (c.note_len % 65536))
    else none,
   if p.note.getD [] ≠ c.note.getD [] then
      some (if p.note_len = c.note_len then strC "  note: (text changed)"
        else strC "  note: (length and text changed)")
    else none].reduceOption

/-- Refinement model, from the spec: for each record of current, in
order, match it to the first not-yet-matched previous record with the
same heading; emit a changed block or an added line; return the report
and the matched index set. -/
def diffSpecLoop (previous : List Rec) (sc : Bool) :
    List Rec → List Nat → List Nat × List Nat
  | [], matched => ([], matched)
  | c :: cs, matched =>
    match firstUnmatched previous matched c.text 0 with
    | some j =>
      let changes := specFieldLines (previous.getD j defaultRec) c sc
      let rest := diffSpecLoop previous sc cs (j :: matched)
      ((if changes.isEmpty then []
        else strC "~ \"" ++ c.text ++ strC "\"" ++ [10]
          ++ changes.flatMap (fun line => line ++ [10])) ++ rest.1, rest.2)
    | none =>
      let rest := diffSpecLoop previous sc cs matched
      ((strC "+ \"" ++ c.text ++ strC "\"" ++ [10]) ++ rest.1, rest.2)

/-- Refinement model, from the spec: after all current records, every
unmatched previous record is reported as removed, in order. -/
def diffSpecRemoved (previous : List Rec) (matched : List Nat) : List Nat :=
  (List.range previous.length).flatMap
    (fun j => if matched.contains j then []
      else strC "- \"" ++ (previous.getD j defaultRec).text ++ strC "\"" ++ [10])

/-- Refinement model of fn diff_mode assembled from the spec text. -/
def diff_mode_spec (previous current : List Rec) (sc : Bool) : List Nat :=
  (diffSpecLoop previous sc current []).1
    ++ diffSpecRemoved previous (diffSpecLoop previous sc current []).2

/-! ### General helper lemmas -/

theorem flatMapCongr {α β : Type} (l : List α) (f g : α → List β)
    (h : ∀ x ∈ l, f x = g x) : l.flatMap f = l.flatMap g := by
  induction l with
  | nil => rfl
  | cons x xs ih =>
    simp only [List.flatMap_cons]
    rw [h x (by simp), ih (fun y hy => h y (by simp [hy]))]

theorem lor_land_of_land_zero (a b c : Nat) (h : b &&& c = 0) :
    (a ||| b) &&& c = a &&& c := by
  apply Nat.eq_of_testBit_eq
  intro i
  have hb : (b.testBit i && c.testBit i) = false := by
    rw [← Nat.testBit_land, h, Nat.zero_testBit]
  simp only [Nat.testBit_land, Nat.testBit_lor]
  cases hx : a.testBit i <;> cases hy : b.testBit i <;>
    cases hz : c.testBit i <;> simp_all

theorem levelsAux_map_setCursor (lvl : Int) (recs : List Rec) :
    levelsAux lvl (recs.map setCursor) = levelsAux lvl recs := by
  induction recs generalizing lvl with
  | nil => rfl
  | cons r rest ih => simp [levelsAux, setCursor, ih]

theorem getD_map_setCursor (recs : List Rec) (i : Nat) (hi : i < recs.length) :
    (recs.map setCursor).getD i defaultRec = setCursor (recs.getD i defaultRec) := by
  simp [List.getD_eq_getElem?_getD, List.getElem?_map,
    List.getElem?_eq_getElem (l := recs) hi]

theorem warningsAt_setCursor (recs : List Rec) (levels : List Int) (b : Bool)
    (i : Nat) (hi : i < recs.length) :
    warningsAt (recs.map setCursor) levels b i = warningsAt recs levels b i := by
  unfold warningsAt
  rw [getD_map_setCursor recs i hi]
  simp only [setCursor, List.length_map]
  rw [lor_land_of_land_zero _ _ _ (by decide),
    lor_land_of_land_zero _ _ _ (by decide),
    lor_land_of_land_zero _ _ _ (by decide)]

/-! ### Claims C2, C4, C5, C8 -/

/-- C2: the claim says the decoder always returns records or one of the
five classified failures and in particular never an out-of-bounds
access.  The code contradicts it (and its own comment, which asks for
only 4 bytes at the terminator where attr + marker + delta need 5): on
the 5-byte input FF 00 FF FF 00 the guard k + 4 >= buf.len() passes and
the source indexes buf[k + 5] past the end of the buffer, a panic.  The
model returns the oob marker exactly there. -/
theorem C2_truncated_delta_oob :
    parse_otl [0xff, 0x00, 0xff, 0xff, 0x00] Enc.latin1 = ParseResult.oob := by
  decide

/-- C4 counterexample: a sequence with two selected records (selection
bit 0x20 set on both) for which the Validator emits no warning at all,
contradicting the claimed single warning listing the selected indices. -/
theorem C4_counterexample :
    countSelected c4recs = 2 ∧ validate c4recs false = [] := by decide

/-- C4 (amended): the Validator has no multiple-selection diagnostic;
its output is insensitive to the selection bit: setting 0x20 on every
record leaves the warning list unchanged. -/
theorem C4_selection_insensitive (recs : List Rec) (assume_child_bit : Bool) :
    validate (recs.map setCursor) assume_child_bit = validate recs assume_child_bit := by
  unfold validate levelsOf
  rw [List.length_map, levelsAux_map_setCursor]
  exact flatMapCongr _ _ _
    (fun i hi => warningsAt_setCursor recs _ _ i (List.mem_range.1 hi))

/-- C5: the two-record scenario A (depth 0, no note) then B (depth 1,
note bytes hello CR LF world) renders canonically as two header lines
followed by the note block: the noteLen line (000c = 12), the note and
/note delimiter lines, and the CRLF-normalized body hello LF world. -/
theorem C5_canon_scenario :
    parse_otl c5buf Enc.latin1 = ParseResult.ok [c5A, c5B]
    ∧ render_canon [c5A, c5B] false
        = strC "nsk mark=-1:+ delta=+0 textLen=0001 \"A\"\n"
          ++ strC "Nsk mark=-1:+ delta=+1 textLen=0001 \"B\"\n"
          ++ strC "noteLen=000c\n" ++ strC "note\n"
          ++ strC "hello\nworld\n" ++ strC "/note\n"
    ∧ c5B.note_len = 12
    ∧ replaceCRLF (c5B.note.getD []) = strC "hello\nworld" := by decide

/-! ### Claim C6: sibling-bit property -/

theorem levelsAux_length (lvl : Int) (recs : List Rec) :
    (levelsAux lvl recs).length = recs.length := by
  induction recs generalizing lvl with
  | nil => rfl
  | cons r rest ih => simp [levelsAux, ih]

theorem levelsOf_length (recs : List Rec) : (levelsOf recs).length = recs.length :=
  levelsAux_length 0 recs

theorem getD_drop (l : List Int) (n m : Nat) :
    (l.drop n).getD m 0 = l.getD (n + m) 0 := by
  simp [List.getD_eq_getElem?_getD, List.getElem?_drop]

theorem laterSame_iff (my : Int) (l : List Int) :
    laterSame my l = true
      ↔ ∃ j, j < l.length ∧ l.getD j 0 = my ∧ ∀ m, m < j → my < l.getD m 0 := by
  induction l with
  | nil => simp [laterSame]
  | cons x rest ih =>
    simp only [laterSame]
    by_cases h1 : x < my
    · rw [if_pos h1]
      constructor
      · intro hc; exact absurd hc (by simp)
      · rintro ⟨j, hj, hget, hall⟩
        exfalso
        match j with
        | 0 => simp at hget; omega
        | j + 1 =>
          have := hall 0 (Nat.succ_pos j)
          simp at this; omega
    · rw [if_neg h1]
      by_cases h2 : x = my
      · rw [if_pos h2]
        constructor
        · intro _; exact ⟨0, by simp, by simp [h2], by omega⟩
        · intro _; rfl
      · rw [if_neg h2, ih]
        constructor
        · rintro ⟨j, hj, hget, hall⟩
          refine ⟨j + 1, by simp; omega, by simpa using hget, ?_⟩
          intro m hm
          match m with
          | 0 => simp; omega
          | m + 1 => simpa using hall m (by omega)
        · rintro ⟨j, hj, hget, hall⟩
          match j with
          | 0 => simp at hget; exact absurd hget h2
          | j + 1 =>
            refine ⟨j, by simp at hj; omega, by simpa using hget, ?_⟩
            intro m hm
            have := hall (m + 1) (by omega)
            simpa using this

theorem sibSpec_iff_laterSame (levels : List Int) (i : Nat) :
    SibSpec levels i ↔ laterSame (levels.getD i 0) (levels.drop (i + 1)) = true := by
  rw [laterSame_iff]
  constructor
  · rintro ⟨j, hjlen, hij, hget, hall⟩
    refine ⟨j - i - 1, by simp [List.length_drop]; omega, ?_, ?_⟩
    · rw [getD_drop]
      have he : i + 1 + (j - i - 1) = j := by omega
      rw [he, hget]
    · intro m hm
      rw [getD_drop]
      exact hall (i + 1 + m) (by omega) (by omega)
  · rintro ⟨j2, hj2, hget, hall⟩
    rw [List.length_drop] at hj2
    refine ⟨i + 1 + j2, by omega, by omega, by rw [getD_drop] at hget; exact hget, ?_⟩
    intro m hmj him
    have := hall (m - i - 1) (by omega)
    rw [getD_drop] at this
    have he : i + 1 + (m - i - 1) = m := by omega
    rwa [he] at this

/-- C6: whenever the Validator emits no sibling-bit warning, the
sibling-follows attribute bit (0x08) of each record i is set exactly
when a later record exists at the same computed depth before any record
whose depth drops below record i's depth. -/
theorem C6_sibling_bit (recs : List Rec) (assume_child_bit : Bool)
    (h : ∀ w ∈ validate recs assume_child_bit, w.isSibling = false) :
    ∀ i, i < recs.length →
      (((recs.getD i defaultRec).attr &&& A_SIBFOLLOWS ≠ 0)
        ↔ SibSpec (levelsOf recs) i) := by
  intro i hi
  have hb : laterSame ((levelsOf recs).getD i 0) ((levelsOf recs).drop (i + 1))
      = ((recs.getD i defaultRec).attr &&& A_SIBFOLLOWS != 0) := by
    by_contra hne
    have hmem : Warning.sibling i ((recs.getD i defaultRec).attr &&& A_SIBFOLLOWS != 0)
        (laterSame ((levelsOf recs).getD i 0) ((levelsOf recs).drop (i + 1)))
        (recs.getD i defaultRec).off_attr ∈ validate recs assume_child_bit := by
      unfold validate
      refine List.mem_flatMap.2 ⟨i, List.mem_range.2 hi, ?_⟩
      unfold warningsAt
      rw [if_pos hne]
      exact List.mem_append_left _ (List.mem_append_left _ (by simp))
    have := h _ hmem
    simp [Warning.isSibling] at this
  rw [sibSpec_iff_laterSame, hb]
  simp

/-- C6 witness: the two-record sequence with correct sibling bits
validates without sibling warnings and satisfies the property. -/
theorem C6_witness :
    (∀ w ∈ validate c6recs false, w.isSibling = false)
    ∧ (∀ i, i < c6recs.length →
        (((c6recs.getD i defaultRec).attr &&& A_SIBFOLLOWS ≠ 0)
          ↔ SibSpec (levelsOf c6recs) i)) :=
  ⟨by decide, C6_sibling_bit c6recs false (by decide)⟩

/-- C8: the decoded heading string is produced byte by byte with a rule
independent of the note encoding (decode_heading takes none): the low 7
bits become one character and a set high bit appends a literal space
after it. -/
theorem C8_heading_decode (bs : List Nat) :
    decode_heading bs
      = bs.flatMap (fun b => (b &&& 0x7f) :: (if b &&& 0x80 ≠ 0 then [32] else [])) := by
  induction bs with
  | nil => rfl
  | cons b rest ih =>
    simp only [decode_heading, List.flatMap_cons, List.cons_append, List.nil_append]
    split <;> simp [ih]

/-! ### Spine lemmas for the tree builder -/

theorem set_concat_self {α : Type} (l : List α) (a b : α) :
    (l ++ [a]).set l.length b = l ++ [b] := by
  rw [List.set_append_right _ _ (Nat.le_refl _)]
  simp

theorem spPath_length (n : Node) (rest : List Node) :
    (spPath n rest).length = rest.length := by
  induction rest generalizing n with
  | nil => cases n; rfl
  | cons m r ih => cases n; simp [spPath, ih]

theorem spPath_concat (n : Node) (rest : List Node) (c : Node) :
    spPath n (rest ++ [c]) = spPath n rest ++ [(rest.getLastD n).children.length] := by
  induction rest generalizing n with
  | nil => cases n; simp [spPath, Node.children]
  | cons m r ih =>
    cases n with
    | node t no co fl sy ch =>
      rw [List.getLastD_cons]
      simp only [List.cons_append, spPath]
      exact congrArg (fun z => ch.length :: z) (ih m)

theorem insertAt_spine (rest : List Node) (n c : Node) :
    insertAt (treeOf n rest) (spPath n rest) c
      = some (treeOf n (rest ++ [c]), (rest.getLastD n).children.length) := by
  induction rest generalizing n with
  | nil => cases n; simp [treeOf, spPath, insertAt, Node.children]
  | cons m r ih =>
    cases n with
    | node t no co fl sy ch =>
      rw [List.getLastD_cons]
      simp only [treeOf, spPath, List.cons_append]
      rw [insertAt, List.getElem?_concat_length]
      simp only []
      rw [ih]
      simp only []
      rw [set_concat_self]
      rfl

theorem push_child_spine (n : Node) (rest : List Node) (c : Node) :
    push_child (treeOf n rest) (spPath n rest) c
      = some (treeOf n (rest ++ [c]), spPath n (rest ++ [c])) := by
  unfold push_child
  rw [insertAt_spine, spPath_concat]

theorem popToLen_ne_nil (sp : List Node) (t : Nat) (h : sp ≠ []) :
    popToLen sp t ≠ [] := by
  match sp with
  | [] => exact absurd rfl h
  | n :: rest =>
    unfold popToLen
    split
    · simp
    · split <;> simp

theorem popToLen_length (sp : List Node) (t : Nat) (ht : 1 ≤ t) :
    (popToLen sp t).length = min sp.length t := by
  induction sp generalizing t with
  | nil => simp [popToLen]
  | cons n rest ih =>
    unfold popToLen
    by_cases hA : rest.length + 1 ≤ t
    · rw [if_pos hA]
      simp only [List.length_cons]
      omega
    · rw [if_neg hA]
      by_cases hB : t ≤ 1
      · rw [if_pos hB]
        simp only [List.length_singleton, List.length_cons, List.length_nil]
        omega
      · rw [if_neg hB]
        simp only [List.length_cons]
        rw [ih (t - 1) (by omega)]
        omega

theorem treeOf_congr (n : Node) (r1 r2 : List Node) (h1 : r1 ≠ []) (h2 : r2 ≠ [])
    (h : spRoot r1 = spRoot r2) : treeOf n r1 = treeOf n r2 := by
  match r1, r2 with
  | a :: as, b :: bs =>
    cases n
    simp only [treeOf]
    simp only [spRoot] at h
    rw [h]

theorem spRoot_popToLen (sp : List Node) (t : Nat) :
    spRoot (popToLen sp t) = spRoot sp := by
  induction sp generalizing t with
  | nil => rfl
  | cons n rest ih =>
    unfold popToLen
    by_cases hA : rest.length + 1 ≤ t
    · rw [if_pos hA]
    · rw [if_neg hA]
      by_cases hB : t ≤ 1
      · rw [if_pos hB]
        simp [spRoot, treeOf]
      · rw [if_neg hB]
        have hne : rest ≠ [] := by
          intro hcon
          subst hcon
          simp only [List.length_nil] at hA
          omega
        have hne2 : popToLen rest (t - 1) ≠ [] := popToLen_ne_nil rest _ hne
        simp only [spRoot]
        exact treeOf_congr n _ _ hne2 hne (ih (t - 1))

theorem spPathL_popToLen (sp : List Node) (t : Nat) (ht : 1 ≤ t) :
    spPathL (popToLen sp t) = (spPathL sp).take (t - 1) := by
  induction sp generalizing t with
  | nil => simp [popToLen, spPathL]
  | cons n rest ih =>
    unfold popToLen
    by_cases hA : rest.length + 1 ≤ t
    · rw [if_pos hA, List.take_of_length_le]
      simp only [spPathL, spPath_length]
      omega
    · rw [if_neg hA]
      by_cases hB : t ≤ 1
      · rw [if_pos hB]
        have hq : t = 1 := by omega
        subst hq
        simp [spPathL, spPath]
      · rw [if_neg hB]
        have hne : rest ≠ [] := by
          intro hcon
          subst hcon
          simp only [List.length_nil] at hA
          omega
        match rest, hne with
        | m :: r, _ =>
          have h2 : popToLen (m :: r) (t - 1) ≠ [] :=
            popToLen_ne_nil _ _ (by simp)
          match hpp : popToLen (m :: r) (t - 1) with
          | [] => exact absurd hpp h2
          | m2 :: r2 =>
            cases n with
            | node tt no co fl sy ch =>
              simp only [spPathL, spPath]
              obtain ⟨s, hs⟩ : ∃ s, t - 1 = s + 1 := ⟨t - 2, by omega⟩
              rw [hs, List.take_succ_cons]
              have hih := ih (t - 1) (by omega)
              rw [hpp] at hih
              simp only [spPathL] at hih
              rw [hih]
              have hq : t - 1 - 1 = s := by omega
              rw [hq]

theorem addFillers_spine (k : Nat) (n : Node) (rest : List Node) :
    addFillers (treeOf n rest) (spPath n rest) k
      = some (treeOf n (rest ++ List.replicate k fillerNode),
          spPath n (rest ++ List.replicate k fillerNode)) := by
  induction k generalizing rest with
  | zero => simp [addFillers]
  | succ k ih =>
    simp only [addFillers]
    rw [push_child_spine]
    simp only []
    rw [ih (rest ++ [fillerNode]), List.append_assoc]
    simp [List.replicate_succ]

theorem buildLoop_spine (recs : List Rec) : ∀ (n : Node) (rest : List Node) (level : Int),
    buildLoop recs (treeOf n rest) (spPath n rest) level
      = some (spRoot (buildSpLoop recs (n :: rest) level).1) := by
  induction recs with
  | nil =>
    intro n rest level
    simp [buildLoop, buildSpLoop, spRoot]
  | cons r rs ih =>
    intro n rest level
    simp only [buildLoop, buildSpLoop]
    set l2 := (if level + r.delta < 0 then 0 else level + r.delta) with hl2def
    have ht : 1 ≤ l2.toNat + 1 := by omega
    match hpp : popToLen (n :: rest) (l2.toNat + 1) with
    | [] => exact absurd hpp (popToLen_ne_nil _ _ (by simp))
    | n2 :: rest2 =>
      have hpopr := spRoot_popToLen (n :: rest) (l2.toNat + 1)
      have hpopp := spPathL_popToLen (n :: rest) (l2.toNat + 1) ht
      rw [hpp] at hpopr hpopp
      simp only [spRoot, spPathL, Nat.add_sub_cancel] at hpopr hpopp
      rw [← hpopr, ← hpopp]
      have hcount : l2.toNat - (spPath n2 rest2).length
          = l2.toNat + 1 - (n2 :: rest2).length := by
        simp only [spPath_length, List.length_cons]
        omega
      rw [hcount, addFillers_spine]
      simp only []
      rw [push_child_spine]
      simp only []
      rw [ih n2 (rest2 ++ List.replicate (l2.toNat + 1 - (n2 :: rest2).length) fillerNode
          ++ [nodeOfRec r]) l2]
      rfl

theorem build_tree_eq_buildSp (recs : List Rec) :
    build_tree recs = some (buildSp recs) := by
  unfold build_tree buildSp
  have h := buildLoop_spine recs fillerNode [] 0
  rw [show treeOf fillerNode [] = fillerNode from rfl,
    show spPath fillerNode [] = [] from rfl] at h
  rw [h]
  rfl

/-- C9: tree construction is total and never panics: for every record
sequence, arbitrary deltas included, build_tree returns a forest (the
index path maintained from the synthetic root always addresses an
existing node, so the indexed descent of push_child never fails). -/
theorem C9_build_tree_total (recs : List Rec) : (build_tree recs).isSome = true := by
  rw [build_tree_eq_buildSp]
  rfl

/-! ### Depth bookkeeping for the built forest -/

theorem depthsPre_append (l1 l2 : List Node) (d : Nat) :
    depthsPre (l1 ++ l2) d = depthsPre l1 d ++ depthsPre l2 d := by
  induction l1 generalizing d with
  | nil => simp [depthsPre]
  | cons x xs ih =>
    cases x
    simp [depthsPre, ih]

theorem depthsPre_treeOf_concat (rest : List Node) (n c : Node) (d : Nat) :
    depthsPre [treeOf n (rest ++ [c])] d
      = depthsPre [treeOf n rest] d ++ depthsPre [c] (d + rest.length + 1) := by
  induction rest generalizing n d with
  | nil =>
    cases n
    simp [treeOf, depthsPre, depthsPre_append]
  | cons m r ih =>
    cases n
    simp only [treeOf, List.cons_append, depthsPre]
    rw [depthsPre_append, depthsPre_append]
    simp only [List.length_cons]
    have := ih m (d + 1)
    simp only [depthsPre] at this
    have h2 : d + 1 + r.length + 1 = d + (r.length + 1) + 1 := by omega
    simp [this, h2]

theorem realsOf_append (l1 l2 : List (Bool × Nat)) :
    realsOf (l1 ++ l2) = realsOf l1 ++ realsOf l2 := by
  simp [realsOf, List.filterMap_append]

theorem realsOf_true_cons (d : Nat) (l : List (Bool × Nat)) :
    realsOf ((true, d) :: l) = realsOf l := by
  simp [realsOf]

theorem realsOf_false_cons (d : Nat) (l : List (Bool × Nat)) :
    realsOf ((false, d) :: l) = d :: realsOf l := by
  simp [realsOf]

theorem depthsPre_shift (l : List Node) (d k : Nat) :
    depthsPre l (d + k) = (depthsPre l d).map (fun p => (p.1, p.2 + k)) := by
  induction l, d using depthsPre.induct with
  | case1 d => simp [depthsPre]
  | case2 t no co fl sy ch rest d ih1 ih2 =>
    simp only [depthsPre, List.map_cons, List.map_append]
    rw [show d + k + 1 = d + 1 + k from by omega, ih1, ih2]

theorem realsOf_map_shift (l : List (Bool × Nat)) (k : Nat) :
    realsOf (l.map (fun p => (p.1, p.2 + k))) = (realsOf l).map (fun x => x + k) := by
  induction l with
  | nil => rfl
  | cons p ps ih =>
    obtain ⟨b, d⟩ := p
    cases b
    · simp only [List.map_cons]
      rw [realsOf_false_cons, realsOf_false_cons, ih, List.map_cons]
    · simp only [List.map_cons]
      rw [realsOf_true_cons, realsOf_true_cons, ih]

theorem treeOf_synthetic (n : Node) (rest : List Node) :
    (treeOf n rest).synthetic = n.synthetic := by
  cases n
  cases rest with
  | nil => rfl
  | cons m r => rfl

theorem treeOf_children_nonroot (n : Node) (m : Node) (r : List Node) :
    treeOf n (m :: r) = Node.node n.text n.note n.collapsed n.flags n.synthetic
      (n.children ++ [treeOf m r]) := by
  cases n; rfl

theorem depthsPre_single (x : Node) (d : Nat) :
    depthsPre [x] d = (x.synthetic, d) :: depthsPre x.children (d + 1) := by
  cases x
  simp [depthsPre, Node.synthetic, Node.children]

theorem realsOf_treeOf_concat (rest : List Node) (n c : Node) :
    realsOf (depthsPre [treeOf n (rest ++ [c])] 0)
      = realsOf (depthsPre [treeOf n rest] 0)
        ++ realsOf (depthsPre [c] (rest.length + 1)) := by
  rw [depthsPre_treeOf_concat, realsOf_append]
  simp

theorem realsOf_treeOf_fillers (k : Nat) (rest : List Node) (n : Node) :
    realsOf (depthsPre [treeOf n (rest ++ List.replicate k fillerNode)] 0)
      = realsOf (depthsPre [treeOf n rest] 0) := by
  induction k generalizing rest with
  | zero => simp
  | succ k ih =>
    rw [List.replicate_succ, show rest ++ (fillerNode :: List.replicate k fillerNode)
        = (rest ++ [fillerNode]) ++ List.replicate k fillerNode from by simp,
      ih (rest ++ [fillerNode]), realsOf_treeOf_concat]
    simp [fillerNode, depthsPre, realsOf]

theorem popToLen_head_syn (n : Node) (rest : List Node) (t : Nat) :
    ∃ n2 rest2, popToLen (n :: rest) t = n2 :: rest2 ∧ n2.synthetic = n.synthetic := by
  unfold popToLen
  by_cases hA : rest.length + 1 ≤ t
  · rw [if_pos hA]
    exact ⟨n, rest, rfl, rfl⟩
  · rw [if_neg hA]
    by_cases hB : t ≤ 1
    · rw [if_pos hB]
      exact ⟨treeOf n rest, [], rfl, treeOf_synthetic n rest⟩
    · rw [if_neg hB]
      exact ⟨n, popToLen rest (t - 1), rfl, rfl⟩

theorem buildSpLoop_head_syn (recs : List Rec) : ∀ (n : Node) (rest : List Node) (level : Int),
    ∃ n3 rest3, (buildSpLoop recs (n :: rest) level).1 = n3 :: rest3
      ∧ n3.synthetic = n.synthetic := by
  induction recs with
  | nil => intro n rest level; exact ⟨n, rest, rfl, rfl⟩
  | cons r rs ih =>
    intro n rest level
    simp only [buildSpLoop]
    set l2 := (if level + r.delta < 0 then 0 else level + r.delta) with hl2def
    obtain ⟨n2, rest2, hpp, hsyn⟩ := popToLen_head_syn n rest (l2.toNat + 1)
    rw [hpp]
    have heq : (n2 :: rest2) ++ List.replicate (l2.toNat + 1 - (n2 :: rest2).length) fillerNode
        ++ [nodeOfRec r]
        = n2 :: (rest2 ++ List.replicate (l2.toNat + 1 - (n2 :: rest2).length) fillerNode
          ++ [nodeOfRec r]) := by simp
    rw [heq]
    obtain ⟨n3, rest3, hq, hs⟩ := ih n2 _ l2
    exact ⟨n3, rest3, hq, by rw [hs, hsyn]⟩

theorem buildSpLoop_realsOf (recs : List Rec) : ∀ (n : Node) (rest : List Node) (level : Int),
    realsOf (depthsPre [spRoot (buildSpLoop recs (n :: rest) level).1] 0)
      = realsOf (depthsPre [treeOf n rest] 0)
        ++ (levelsAux level recs).map (fun l => l.toNat + 1) := by
  induction recs with
  | nil =>
    intro n rest level
    simp [buildSpLoop, spRoot, levelsAux]
  | cons r rs ih =>
    intro n rest level
    simp only [buildSpLoop, levelsAux]
    set l2 := (if level + r.delta < 0 then 0 else level + r.delta) with hl2def
    match hpp : popToLen (n :: rest) (l2.toNat + 1) with
    | [] => exact absurd hpp (popToLen_ne_nil _ _ (by simp))
    | n2 :: rest2 =>
      have hlen := popToLen_length (n :: rest) (l2.toNat + 1) (by omega)
      rw [hpp] at hlen
      have hpopr := spRoot_popToLen (n :: rest) (l2.toNat + 1)
      rw [hpp] at hpopr
      simp only [spRoot] at hpopr
      have heq : (n2 :: rest2) ++ List.replicate (l2.toNat + 1 - (n2 :: rest2).length) fillerNode
          ++ [nodeOfRec r]
          = n2 :: (rest2 ++ List.replicate (l2.toNat + 1 - (n2 :: rest2).length) fillerNode
            ++ [nodeOfRec r]) := by simp
      rw [heq, ih n2 _ l2]
      rw [realsOf_treeOf_concat, realsOf_treeOf_fillers]
      rw [hpopr]
      have hrl : rest2.length ≤ l2.toNat := by
        simp only [List.length_cons] at hlen
        omega
      have hdep : (rest2 ++ List.replicate (l2.toNat + 1 - (n2 :: rest2).length)
          fillerNode).length + 1 = l2.toNat + 1 := by
        simp only [List.length_append, List.length_replicate, List.length_cons]
        omega
      rw [hdep]
      have hnode : realsOf (depthsPre [nodeOfRec r] (l2.toNat + 1)) = [l2.toNat + 1] := by
        simp [nodeOfRec, depthsPre, realsOf]
      rw [hnode]
      simp [List.map_cons]

theorem realsOf_buildSp (recs : List Rec) :
    realDepths (buildSp recs) = (levelsOf recs).map Int.toNat := by
  unfold buildSp realDepths levelsOf
  have h := buildSpLoop_realsOf recs fillerNode [] 0
  obtain ⟨n3, rest3, hq, hs⟩ := buildSpLoop_head_syn recs fillerNode [] 0
  rw [hq] at h ⊢
  rw [show treeOf fillerNode [] = fillerNode from rfl] at h
  rw [show depthsPre [fillerNode] 0 = [(true, 0)] from by
    simp [depthsPre, fillerNode], realsOf_true_cons] at h
  rw [show realsOf [] = [] from rfl, List.nil_append] at h
  rw [depthsPre_single] at h
  have hsy : (spRoot (n3 :: rest3)).synthetic = true := by
    simp only [spRoot, treeOf_synthetic, hs]
    rfl
  rw [hsy, realsOf_true_cons] at h
  have hshift := depthsPre_shift (spRoot (n3 :: rest3)).children 0 1
  simp only [Nat.zero_add] at hshift
  rw [hshift, realsOf_map_shift] at h
  have hr : (levelsAux 0 recs).map (fun l => l.toNat + 1)
      = ((levelsAux 0 recs).map Int.toNat).map (fun x => x + 1) := by
    rw [List.map_map]
    rfl
  rw [hr] at h
  exact List.map_injective_iff.2 (fun a b hab => by omega) h

/-- C3: every real node of the built forest sits at a depth equal to the
zero-floored running sum of the deltas up to and including its record,
in file order (forest roots at depth 0; real nodes appear in pre-order
in record order). -/
theorem C3_depth_invariant (recs : List Rec) (t : List Node)
    (h : build_tree recs = some t) :
    realDepths t = (levelsOf recs).map Int.toNat := by
  rw [build_tree_eq_buildSp] at h
  obtain rfl : buildSp recs = t := Option.some.inj h
  exact realsOf_buildSp recs

/-- C3 witness: the level-jump scenario with deltas 0, +2, -1, 0 builds
the forest with real depths 0, 2, 1, 1. -/
theorem C3_witness :
    build_tree c3recs = some c3tree
    ∧ realDepths c3tree = (levelsOf c3recs).map Int.toNat :=
  ⟨rfl, C3_depth_invariant c3recs c3tree rfl⟩

/-! ### Claim C10: diff self-identity -/

theorem diff_two_recs_self (r : Rec) (show_cursor : Bool) :
    diff_two_recs r r show_cursor = [] := by
  simp [diff_two_recs]

theorem getD_replicate_lt {a d : Bool} (n j : Nat) (h : j < n) :
    (List.replicate n a).getD j d = a := by
  simp [List.getD_eq_getElem?_getD, List.getElem?_replicate, h]

theorem findMatchFrom_step : ∀ (ps : List Rec) (used : List Bool) (j i : Nat),
    (∀ m, m < i → used.getD (j + m) false = true) →
    used.getD (j + i) false = false →
    i < ps.length →
    findMatchFrom ps used (ps.getD i defaultRec).text j = some (j + i) := by
  intro ps
  induction ps with
  | nil => intro used j i h1 h2 h3; simp at h3
  | cons p ps2 ih =>
    intro used j i h1 h2 h3
    match i with
    | 0 =>
      simp only [Nat.add_zero] at h2
      simp only [List.getD_cons_zero]
      unfold findMatchFrom
      rw [if_pos ⟨h2, rfl⟩]
      simp
    | i2 + 1 =>
      have hj : used.getD j false = true := by
        have := h1 0 (by omega)
        simpa using this
      unfold findMatchFrom
      rw [if_neg (fun hcon => by
        have hc1 := hcon.1
        rw [hj] at hc1
        exact absurd hc1 (by decide))]
      have := ih used (j + 1) i2
        (fun m hm => by
          have := h1 (m + 1) (by omega)
          rwa [show j + (m + 1) = j + 1 + m from by omega] at this)
        (by rwa [show j + 1 + i2 = j + (i2 + 1) from by omega])
        (by simp at h3; omega)
      simp only [List.getD_cons_succ]
      rw [this]
      congr 1
      omega

theorem set_mask_succ (i k : Nat) :
    (List.replicate i true ++ List.replicate (k + 1) false).set i true
      = List.replicate (i + 1) true ++ List.replicate k false := by
  rw [List.replicate_succ (n := k), List.set_append_right _ _ (by simp)]
  simp [List.replicate_succ' (n := i), List.append_assoc]

theorem diffLoop_self_aux (prev : List Rec) (sc : Bool) :
    ∀ (k i : Nat) (out : List Nat), i + k = prev.length →
    diffLoop prev sc (prev.drop i) (List.replicate i true ++ List.replicate k false) out
      = (out, List.replicate prev.length true) := by
  intro k
  induction k with
  | zero =>
    intro i out h
    rw [List.drop_eq_nil_of_le (by omega)]
    simp only [diffLoop, List.replicate_zero, List.append_nil]
    rw [show i = prev.length from by omega]
  | succ k ih =>
    intro i out h
    have hi : i < prev.length := by omega
    rw [List.drop_eq_getElem_cons hi]
    simp only [diffLoop]
    have hfind := findMatchFrom_step prev
      (List.replicate i true ++ List.replicate (k + 1) false) 0 i
      (fun m hm => by
        rw [Nat.zero_add, List.getD_append _ _ _ m (by simp; omega)]
        exact getD_replicate_lt i m hm)
      (by
        rw [Nat.zero_add]
        rw [List.getD_eq_getElem?_getD, List.getElem?_append_right (by simp)]
        simp [List.getElem?_replicate])
      hi
    rw [Nat.zero_add] at hfind
    rw [show (prev.getD i defaultRec).text = prev[i].text from by
      rw [List.getD_eq_getElem prev defaultRec hi]] at hfind
    rw [hfind]
    simp only []
    rw [show prev.getD i defaultRec = prev[i] from List.getD_eq_getElem prev defaultRec hi]
    rw [diff_two_recs_self]
    simp only [List.isEmpty_nil, if_pos]
    rw [set_mask_succ, List.append_nil]
    exact ih (i + 1) out (by omega)

theorem removedLines_all_used (prev : List Rec) :
    removedLines prev (List.replicate prev.length true) = [] := by
  unfold removedLines
  have : ∀ j ∈ List.range prev.length,
      (if (List.replicate prev.length true).getD j false then []
       else strC "- \"" ++ (prev.getD j defaultRec).text ++ strC "\"" ++ [10])
        = ([] : List Nat) := by
    intro j hj
    rw [getD_replicate_lt _ _ (List.mem_range.1 hj)]
    simp
  rw [flatMapCongr _ _ _ this]
  simp

/-- C10: diffing a record sequence against itself, under either value of
the show-selection toggle, produces the empty report: no changed, added
or removed records. -/
theorem C10_diff_self (recs : List Rec) (show_cursor : Bool) :
    diff_mode recs recs show_cursor = [] := by
  unfold diff_mode
  have h := diffLoop_self_aux recs show_cursor recs.length 0 [] (by omega)
  simp only [List.drop_zero, List.replicate_zero, List.nil_append] at h
  rw [h]
  simp only []
  rw [removedLines_all_used]
  rfl

/-! ### Claim C7: greedy diff refinement -/

theorem specFieldLines_eq (p c : Rec) (sc : Bool) :
    specFieldLines p c sc = diff_two_recs p c sc := by
  unfold specFieldLines diff_two_recs
  split_ifs <;> simp_all [List.reduceOption]

theorem firstUnmatched_bound : ∀ (ps : List Rec) (matched : List Nat)
    (t : List Nat) (j0 j : Nat),
    firstUnmatched ps matched t j0 = some j → j < j0 + ps.length := by
  intro ps
  induction ps with
  | nil => intro matched t j0 j h; simp [firstUnmatched] at h
  | cons p ps ih =>
    intro matched t j0 j h
    unfold firstUnmatched at h
    by_cases hc : matched.contains j0 = false ∧ p.text = t
    · rw [if_pos hc] at h
      injection h with h
      simp only [List.length_cons]
      omega
    · rw [if_neg hc] at h
      have := ih matched t (j0 + 1) j h
      simp only [List.length_cons]
      omega

theorem findMatchFrom_eq_firstUnmatched : ∀ (ps : List Rec) (used : List Bool)
    (matched : List Nat) (t : List Nat) (j : Nat),
    (∀ i, used.getD i false = matched.contains i) →
    findMatchFrom ps used t j = firstUnmatched ps matched t j := by
  intro ps
  induction ps with
  | nil => intro used matched t j h; rfl
  | cons p ps ih =>
    intro used matched t j h
    unfold findMatchFrom firstUnmatched
    rw [h j]
    split
    · rfl
    · exact ih used matched t (j + 1) h

theorem inv_set (used : List Bool) (matched : List Nat) (j : Nat)
    (hj : j < used.length)
    (hinv : ∀ i, used.getD i false = matched.contains i) :
    ∀ i, (used.set j true).getD i false = (j :: matched).contains i := by
  intro i
  rw [List.contains_cons]
  by_cases hij : i = j
  · subst hij
    rw [List.getD_eq_getElem?_getD, List.getElem?_set_self hj]
    simp
  · rw [List.getD_eq_getElem?_getD, List.getElem?_set_ne (fun hcon => hij hcon.symm),
      ← List.getD_eq_getElem?_getD, hinv i]
    have hb : (i == j) = false := by
      simp only [beq_eq_false_iff_ne, ne_eq]
      exact hij
    rw [hb, Bool.false_or]

theorem diffLoop_spec_rel (prev : List Rec) (sc : Bool) :
    ∀ (cs : List Rec) (used : List Bool) (matched : List Nat) (out : List Nat),
    used.length = prev.length →
    (∀ i, used.getD i false = matched.contains i) →
    (diffLoop prev sc cs used out).1 = out ++ (diffSpecLoop prev sc cs matched).1
    ∧ ∀ i, (diffLoop prev sc cs used out).2.getD i false
        = (diffSpecLoop prev sc cs matched).2.contains i := by
  intro cs
  induction cs with
  | nil =>
    intro used matched out hlen hinv
    exact ⟨by simp [diffLoop, diffSpecLoop], fun i => by
      simp only [diffLoop, diffSpecLoop]
      exact hinv i⟩
  | cons c cs ih =>
    intro used matched out hlen hinv
    simp only [diffLoop, diffSpecLoop]
    rw [findMatchFrom_eq_firstUnmatched prev used matched c.text 0 hinv]
    match hj : firstUnmatched prev matched c.text 0 with
    | some j =>
      simp only []
      have hjb : j < prev.length := by
        have := firstUnmatched_bound prev matched c.text 0 j hj
        omega
      rw [specFieldLines_eq]
      have hrec := ih (used.set j true) (j :: matched)
        (out ++ (if (diff_two_recs (prev.getD j defaultRec) c sc).isEmpty then []
          else strC "~ \"" ++ c.text ++ strC "\"" ++ [10]
            ++ (diff_two_recs (prev.getD j defaultRec) c sc).flatMap
              (fun line => line ++ [10])))
        (by simpa using hlen)
        (inv_set used matched j (by omega) hinv)
      refine ⟨?_, hrec.2⟩
      rw [hrec.1, List.append_assoc]
    | none =>
      simp only []
      have hrec := ih used matched
        (out ++ (strC "+ \"" ++ c.text ++ strC "\"" ++ [10])) hlen hinv
      refine ⟨?_, hrec.2⟩
      rw [hrec.1, List.append_assoc]

theorem removedLines_eq_spec (prev : List Rec) (used : List Bool) (matched : List Nat)
    (hinv : ∀ i, used.getD i false = matched.contains i) :
    removedLines prev used = diffSpecRemoved prev matched := by
  unfold removedLines diffSpecRemoved
  apply flatMapCongr
  intro j hj
  rw [hinv j]

/-- C7: the DiffEngine coincides with the specification model: each
current record, in order, matches the first not-yet-matched previous
record with identical heading text; a matched pair emits one change
line per differing field among attribute byte, marker word, delta, raw
heading length, raw note length and decoded note text (note text
summarized); unmatched current records are reported added, and every
unmatched previous record is then reported removed. -/
theorem C7_diff_refinement (previous current : List Rec) (show_cursor : Bool) :
    diff_mode previous current show_cursor
      = diff_mode_spec previous current show_cursor := by
  have h := diffLoop_spec_rel previous show_cursor current
    (List.replicate previous.length false) [] [] (by simp)
    (fun i => by
      rw [List.getD_eq_getElem?_getD, List.getElem?_replicate]
      split <;> rfl)
  unfold diff_mode diff_mode_spec
  simp only []
  rw [h.1, List.nil_append, removedLines_eq_spec previous _ _ h.2]

/-! ### Flats of the built forest -/

theorem flatten_append (l1 l2 : List Node) (lvl : Nat) :
    flatten (l1 ++ l2) lvl = flatten l1 lvl ++ flatten l2 lvl := by
  induction l1 generalizing lvl with
  | nil => simp [flatten]
  | cons x xs ih =>
    cases x with
    | node t no co fl sy ch =>
      simp only [flatten, List.cons_append]
      split
      · rw [ih, List.append_assoc]
      · rw [ih]
        simp [List.append_assoc]

theorem flatten_single_syn (x : Node) (lvl : Nat) (h : x.synthetic = true) :
    flatten [x] lvl = flatten x.children lvl := by
  cases x with
  | node t no co fl sy ch =>
    simp only [Node.synthetic] at h
    subst h
    simp [flatten, Node.children]

theorem flatten_fillerNode (lvl : Nat) : flatten [fillerNode] lvl = [] := by
  simp [flatten, fillerNode]

theorem flatten_nodeOfRec (r : Rec) (lvl : Nat) :
    flatten [nodeOfRec r] lvl = [⟨lvl, r.text, r.note⟩] := by
  simp [flatten, nodeOfRec]

/-- The realness bits of a spine (true = real node). -/
def realBits (l : List Node) : List Bool := l.map (fun x => !x.synthetic)

theorem countTrue_cons (b : Bool) (bs : List Bool) :
    countTrue (b :: bs) = countTrue bs + (if b then 1 else 0) := by
  cases b <;> simp [countTrue, List.count_cons]

theorem countTrue_append_false (x : List Bool) (k : Nat) :
    countTrue (x ++ List.replicate k false) = countTrue x := by
  simp [countTrue, List.count_append, List.count_replicate]

theorem realBits_replicate_filler (k : Nat) :
    realBits (List.replicate k fillerNode) = List.replicate k false := by
  simp [realBits, List.map_replicate, fillerNode, Node.synthetic]

theorem realBits_length (l : List Node) : (realBits l).length = l.length := by
  simp [realBits]

theorem flatten_treeOf_concat (rest : List Node) (n c : Node) (lvl : Nat) :
    flatten [treeOf n (rest ++ [c])] lvl
      = flatten [treeOf n rest] lvl
        ++ flatten [c] (lvl + countTrue (realBits (n :: rest))) := by
  induction rest generalizing n lvl with
  | nil =>
    cases n with
    | node t no co fl sy ch =>
      cases sy
      · simp only [List.nil_append, treeOf, flatten, Bool.false_eq_true, if_false,
          flatten_append, realBits, List.map_cons, List.map_nil, Node.synthetic,
          Bool.not_false]
        rw [countTrue_cons]
        simp [countTrue, List.append_assoc]
      · simp only [List.nil_append, treeOf, flatten, if_true, flatten_append,
          realBits, List.map_cons, List.map_nil, Node.synthetic, Bool.not_true]
        rw [countTrue_cons]
        simp [countTrue]
  | cons m r ih =>
    cases n with
    | node t no co fl sy ch =>
      have hc : ∀ X, treeOf (Node.node t no co fl sy ch) (m :: X)
          = Node.node t no co fl sy (ch ++ [treeOf m X]) := fun X => rfl
      rw [show m :: r ++ [c] = m :: (r ++ [c]) from rfl, hc (r ++ [c]), hc r]
      have hbits : countTrue (realBits (Node.node t no co fl sy ch :: m :: r))
          = countTrue (realBits (m :: r)) + (if !sy then 1 else 0) := by
        simp only [realBits, List.map_cons, Node.synthetic]
        rw [countTrue_cons]
      cases sy
      · simp only [flatten, Bool.false_eq_true, if_false, flatten_append]
        rw [ih]
        simp only [hbits, Bool.not_false, if_true]
        have harr : lvl + 1 + countTrue (realBits (m :: r))
            = lvl + (countTrue (realBits (m :: r)) + 1) := by omega
        rw [harr]
        simp [List.append_assoc]
      · simp only [flatten, if_true, flatten_append]
        rw [ih]
        simp only [hbits, Bool.not_true, if_false, Nat.add_zero]
        simp [List.append_assoc]

theorem flatten_treeOf_fillers (k : Nat) (rest : List Node) (n : Node) (lvl : Nat) :
    flatten [treeOf n (rest ++ List.replicate k fillerNode)] lvl
      = flatten [treeOf n rest] lvl := by
  induction k generalizing rest with
  | zero => simp
  | succ k ih =>
    rw [List.replicate_succ, show rest ++ (fillerNode :: List.replicate k fillerNode)
        = (rest ++ [fillerNode]) ++ List.replicate k fillerNode from by simp,
      ih (rest ++ [fillerNode]), flatten_treeOf_concat, flatten_fillerNode]
    simp

theorem realBits_popToLen (sp : List Node) (t : Nat) (ht : 1 ≤ t) :
    realBits (popToLen sp t) = (realBits sp).take t := by
  induction sp generalizing t with
  | nil => simp [popToLen, realBits]
  | cons n rest ih =>
    unfold popToLen
    by_cases hA : rest.length + 1 ≤ t
    · rw [if_pos hA, List.take_of_length_le]
      simp only [realBits_length, List.length_cons]
      omega
    · rw [if_neg hA]
      by_cases hB : t ≤ 1
      · rw [if_pos hB]
        have hq : t = 1 := by omega
        subst hq
        simp only [realBits, List.map_cons, List.map_nil, List.take_succ_cons,
          List.take_zero]
        rw [show (!(treeOf n rest).synthetic) = !n.synthetic from by
          rw [treeOf_synthetic]]
      · rw [if_neg hB]
        obtain ⟨s, hs⟩ : ∃ s, t = s + 1 := ⟨t - 1, by omega⟩
        subst hs
        simp only [realBits, List.map_cons, List.take_succ_cons]
        have := ih s (by omega)
        simp only [realBits] at this
        rw [show s + 1 - 1 = s from by omega, this]

theorem buildSpLoop_flatten (recs : List Rec) :
    ∀ (n : Node) (rest : List Node) (level : Int),
    flatten [spRoot (buildSpLoop recs (n :: rest) level).1] 0
      = flatten [treeOf n rest] 0
        ++ pflatsAux (realBits (n :: rest)) level recs := by
  induction recs with
  | nil =>
    intro n rest level
    simp [buildSpLoop, spRoot, pflatsAux]
  | cons r rs ih =>
    intro n rest level
    simp only [buildSpLoop, pflatsAux]
    set l2 := (if level + r.delta < 0 then 0 else level + r.delta) with hl2def
    match hpp : popToLen (n :: rest) (l2.toNat + 1) with
    | [] => exact absurd hpp (popToLen_ne_nil _ _ (by simp))
    | n2 :: rest2 =>
      have hlen := popToLen_length (n :: rest) (l2.toNat + 1) (by omega)
      rw [hpp] at hlen
      have hpopr := spRoot_popToLen (n :: rest) (l2.toNat + 1)
      rw [hpp] at hpopr
      simp only [spRoot] at hpopr
      have hbits := realBits_popToLen (n :: rest) (l2.toNat + 1) (by omega)
      rw [hpp] at hbits
      have heq : (n2 :: rest2) ++ List.replicate (l2.toNat + 1 - (n2 :: rest2).length) fillerNode
          ++ [nodeOfRec r]
          = n2 :: (rest2 ++ List.replicate (l2.toNat + 1 - (n2 :: rest2).length) fillerNode
            ++ [nodeOfRec r]) := by simp
      rw [heq, ih n2 _ l2]
      rw [show rest2 ++ List.replicate (l2.toNat + 1 - (n2 :: rest2).length) fillerNode
          ++ [nodeOfRec r]
          = (rest2 ++ List.replicate (l2.toNat + 1 - (n2 :: rest2).length) fillerNode)
            ++ [nodeOfRec r] from by simp [List.append_assoc]]
      rw [flatten_treeOf_concat, flatten_treeOf_fillers, flatten_nodeOfRec]
      rw [hpopr]
      -- bits of the spine after pops and fillers
      have hbits2 : realBits (n2 :: (rest2
            ++ List.replicate (l2.toNat + 1 - (n2 :: rest2).length) fillerNode))
          = realBits (n2 :: rest2)
            ++ List.replicate (l2.toNat + 1 - (n2 :: rest2).length) false := by
        simp [realBits, List.map_append, List.map_replicate, fillerNode, Node.synthetic]
      have hbits3 : realBits (n2 :: (rest2
            ++ List.replicate (l2.toNat + 1 - (n2 :: rest2).length) fillerNode
            ++ [nodeOfRec r]))
          = (realBits (n2 :: rest2)
              ++ List.replicate (l2.toNat + 1 - (n2 :: rest2).length) false) ++ [true] := by
        simp [realBits, List.map_append, List.map_replicate, fillerNode,
          Node.synthetic, nodeOfRec, List.append_assoc]
      have hcnt : countTrue (realBits (n2 :: (rest2
            ++ List.replicate (l2.toNat + 1 - (n2 :: rest2).length) fillerNode)))
          = countTrue (realBits (n2 :: rest2)) := by
        rw [hbits2, countTrue_append_false]
      rw [hcnt, hbits3, hbits]
      -- align the machine pad length with the spine fill length
      have hpadlen : ((realBits (n :: rest)).take (l2.toNat + 1)).length
          = (n2 :: rest2).length := by
        rw [← hbits]
        exact realBits_length _
      rw [hpadlen, countTrue_append_false, Nat.zero_add]
      simp [List.append_assoc]

/-- Central lemma: the spliced flats of the built forest are exactly
the machine flats of the record list. -/
theorem flatten_buildSp (recs : List Rec) :
    flatten (buildSp recs) 0 = pflatsOf recs := by
  unfold buildSp pflatsOf
  have h := buildSpLoop_flatten recs fillerNode [] 0
  obtain ⟨n3, rest3, hq, hs⟩ := buildSpLoop_head_syn recs fillerNode [] 0
  rw [hq] at h ⊢
  rw [show treeOf fillerNode [] = fillerNode from rfl, flatten_fillerNode,
    List.nil_append] at h
  rw [show realBits [fillerNode] = [false] from by
    simp [realBits, fillerNode, Node.synthetic]] at h
  rw [← h]
  have hsy : (spRoot (n3 :: rest3)).synthetic = true := by
    simp only [spRoot, treeOf_synthetic, hs]
    rfl
  rw [flatten_single_syn _ _ hsy]

theorem plainOfFlats_append (a b : List PFlat) :
    plainOfFlats (a ++ b) = plainOfFlats a ++ plainOfFlats b := by
  simp [plainOfFlats]

/-- PlainAll reads only the spliced flats of a forest. -/
theorem render_plain_all_eq_plainOfFlats (l : List Node) (d : Nat) :
    render_plain_all l d = plainOfFlats (flatten l d) := by
  induction l, d using render_plain_all.induct with
  | case1 d => simp [render_plain_all, flatten, plainOfFlats]
  | case2 t no co fl ch rest depth ih1 ih2 =>
    cases no <;>
      simp [render_plain_all, flatten, plainOfFlats_append, ih1, ih2]
  | case3 t no co fl syn ch rest depth hsyn ih1 ih2 =>
    cases no <;>
      simp [render_plain_all, flatten, hsyn, plainOfFlats_append, ih1, ih2,
        plainOfFlats, List.append_assoc]

/-! ### 16-bit arithmetic round trips -/

theorem toI16_lb (x : Int) : -32768 ≤ toI16 x := by
  unfold toI16
  omega

theorem toI16_ub (x : Int) : toI16 x ≤ 32767 := by
  unfold toI16
  omega

theorem toI16_eq_self (x : Int) (h1 : -32768 ≤ x) (h2 : x ≤ 32767) :
    toI16 x = x := by
  unfold toI16
  omega

theorem u16le_getD (n : Nat) (h : n < 65536) :
    (u16le n).getD 0 0 + 256 * (u16le n).getD 1 0 = n := by
  simp only [u16le, List.getD_cons_zero, List.getD_cons_succ]
  omega

theorem u16le_length (n : Nat) : (u16le n).length = 2 := rfl

theorem i16le_length (d : Int) : (i16le d).length = 2 := rfl

theorem i16val_i16le (d : Int) (h1 : -32768 ≤ d) (h2 : d ≤ 32767) :
    i16val ((i16le d).getD 0 0) ((i16le d).getD 1 0) = d := by
  unfold i16le
  have hmod : d % 65536 = if 0 ≤ d then d else d + 65536 := by
    split <;> omega
  by_cases hd : 0 ≤ d
  · rw [hmod, if_pos hd]
    obtain ⟨m, hm⟩ : ∃ m : Nat, d = (m : Int) := ⟨d.toNat, by omega⟩
    subst hm
    have hm2 : m < 32768 := by omega
    simp only [Int.toNat_natCast]
    unfold i16val u16le
    simp only [List.getD_cons_zero, List.getD_cons_succ]
    have hv : m % 256 + 256 * (m / 256 % 256) = m := by omega
    rw [if_pos (by omega)]
    push_cast
    omega
  · rw [hmod, if_neg hd]
    obtain ⟨m, hm⟩ : ∃ m : Nat, d + 65536 = (m : Int) := ⟨(d + 65536).toNat, by omega⟩
    rw [hm]
    have hm2 : 32768 ≤ m ∧ m < 65536 := by omega
    simp only [Int.toNat_natCast]
    unfold i16val u16le
    simp only [List.getD_cons_zero, List.getD_cons_succ]
    rw [if_neg (by omega)]
    push_cast
    omega

/-! ### The level discipline of spliced flats -/

theorem countTrue_take_le (bs : List Bool) (n : Nat) :
    countTrue (bs.take n) ≤ countTrue bs := by
  unfold countTrue
  exact (List.take_sublist n bs).count_le true

theorem countTrue_drop_bound (bs : List Bool) (n : Nat) :
    countTrue bs ≤ countTrue (bs.take n) + (bs.length - n) := by
  conv_lhs => rw [← List.take_append_drop n bs]
  unfold countTrue
  rw [List.count_append]
  have h1 : (bs.drop n).count true ≤ (bs.drop n).length := List.count_le_length _ _
  have h2 : (bs.drop n).length = bs.length - n := List.length_drop _ _
  omega

theorem pflatsAux_stepsOK (recs : List Rec)
    (hd : ∀ r ∈ recs, -32768 ≤ r.delta) :
    ∀ (bs : List Bool) (level : Int), (bs.length : Int) ≤ level + 2 → 0 ≤ level →
    StepsOK ((countTrue bs : Int) - 1) (pflatsAux bs level recs) := by
  induction recs with
  | nil => intro bs level _ _; simp [pflatsAux, StepsOK]
  | cons r rs ih =>
    intro bs level hlen hlev
    have hdr : -32768 ≤ r.delta := hd r (by simp)
    have hdrs : ∀ x ∈ rs, -32768 ≤ x.delta := fun x hx => hd x (by simp [hx])
    simp only [pflatsAux, StepsOK]
    set l1 := level + r.delta with hl1
    set l2 := if l1 < 0 then 0 else l1 with hl2
    have hl2n : 0 ≤ l2 := by rw [hl2]; split <;> omega
    have hl2ge : l1 ≤ l2 := by rw [hl2]; split <;> omega
    set bs2 := bs.take (l2.toNat + 1) with hbs2
    set bs3 := bs2 ++ List.replicate (l2.toNat + 1 - bs2.length) false with hbs3
    have hb3c : countTrue bs3 = countTrue bs2 := countTrue_append_false _ _
    have hb2le : countTrue bs2 ≤ countTrue bs := countTrue_take_le _ _
    have hcnt_le : countTrue bs ≤ countTrue bs2 + (bs.length - (l2.toNat + 1)) :=
      countTrue_drop_bound bs (l2.toNat + 1)
    have hb3len : bs3.length = l2.toNat + 1 := by
      rw [hbs3, List.length_append, List.length_replicate, hbs2, List.length_take]
      omega
    refine ⟨?_, ?_, ?_⟩
    · rw [hb3c]; omega
    · rw [hb3c]
      by_cases hcase : bs.length ≤ l2.toNat + 1
      · have : countTrue bs ≤ countTrue bs2 + 0 := by omega
        omega
      · have hx : (bs.length : Int) - (l2.toNat + 1) ≤ level + 2 - (l2 + 1) := by
          omega
        have : (countTrue bs : Int) ≤ countTrue bs2 + (level + 1 - l2) := by
          omega
        omega
    · have := ih hdrs (bs3 ++ [true]) l2
        (by
          rw [List.length_append, hb3len]
          simp only [List.length_singleton]
          omega) hl2n
      have hc : countTrue (bs3 ++ [true]) = countTrue bs3 + 1 := by
        unfold countTrue
        rw [List.count_append]
        rfl
      rw [hc, hb3c] at this
      have hq : (countTrue bs2 + 1 : Int) - 1 = (countTrue bs2 : Int) := by omega
      rw [hb3c]
      rw [show ((countTrue bs2 + 1 : Nat) : Int) - 1 = (countTrue bs2 : Int) from by
        push_cast; omega] at this
      exact this

/-! ### Echo: the machine reproduces its own flats -/

theorem pflatsAux_echo_mid :
    ∀ (fl : List PFlat) (rs : List Rec) (p : Nat),
    StepsOK (p : Int) fl → Echo (p : Int) fl rs →
    pflatsAux (false :: List.replicate (p + 1) true) (p : Int) rs = fl := by
  intro fl
  induction fl with
  | nil =>
    intro rs p _ he
    unfold Echo at he
    subst he
    rfl
  | cons f fs ih =>
    intro rs p hs he
    unfold Echo at he
    match rs with
    | [] => exact he.elim
    | r :: rs2 =>
      obtain ⟨ht, hn, hdel, he2⟩ := he
      obtain ⟨hcl, hdr, hs2⟩ := hs
      have hrange : -32768 ≤ (f.level : Int) - p ∧ (f.level : Int) - p ≤ 32767 := by
        constructor <;> omega
      rw [toI16_eq_self _ hrange.1 hrange.2] at hdel
      simp only [pflatsAux]
      rw [hdel]
      have hl1 : (p : Int) + ((f.level : Int) - p) = (f.level : Int) := by ring
      rw [hl1]
      have hnn : ¬((f.level : Int) < 0) := by omega
      rw [if_neg hnn]
      have htn : (f.level : Int).toNat = f.level := Int.toNat_natCast f.level
      rw [htn]
      have htake : (false :: List.replicate (p + 1) true).take (f.level + 1)
          = false :: List.replicate f.level true := by
        rw [List.take_succ_cons, List.take_replicate]
        have : min (f.level) (p + 1) = f.level := by omega
        rw [this]
      rw [htake]
      have hlen : (false :: List.replicate f.level true).length = f.level + 1 := by
        simp
      rw [hlen, Nat.sub_self, List.replicate_zero, List.append_nil]
      have hcount : countTrue (false :: List.replicate f.level true) = f.level := by
        unfold countTrue
        rw [List.count_cons]
        simp [List.count_replicate]
      rw [hcount, ht, hn]
      have hrecur : (false :: List.replicate f.level true) ++ [true]
          = false :: List.replicate (f.level + 1) true := by
        rw [List.replicate_succ' (n := f.level)]
        simp
      rw [hrecur]
      rw [ih rs2 f.level hs2 he2]

/-! ### The encoder walk against the spliced flats -/

/-- One serialized flat against the spliced flat it came from: same
level, encoded heading, encoded note. -/
def FlatMatch (enc : Enc) (p : PFlat) (f : EFlat) : Prop :=
  f.level = p.level ∧ f.text = encode_heading_from_text p.text
    ∧ f.note = p.note.map (fun s => encode_note_bytes s enc)

theorem forall2_append {α β : Type} {R : α → β → Prop} :
    ∀ {l1 : List α} {l2 : List β} {l3 : List α} {l4 : List β},
    List.Forall₂ R l1 l2 → List.Forall₂ R l3 l4 →
    List.Forall₂ R (l1 ++ l3) (l2 ++ l4) := by
  intro l1 l2 l3 l4 h1 h2
  induction h1 with
  | nil => exact h2
  | cons hab _ ih => exact List.Forall₂.cons hab ih

theorem walkFlats_forall2 (enc : Enc) (l : List Node) (lvl : Nat) :
    List.Forall₂ (FlatMatch enc) (flatten l lvl) (walkFlats l lvl enc) := by
  induction l, lvl, enc using walkFlats.induct with
  | case1 lvl enc => simp [flatten, walkFlats]
  | case2 t no co fl ch rest lvl enc ih1 ih2 =>
    simp only [flatten, walkFlats, if_true]
    exact forall2_append ih1 ih2
  | case3 t no co fl syn ch rest lvl enc hsyn ih1 ih2 =>
    simp only [flatten, walkFlats]
    rw [if_neg hsyn, if_neg hsyn]
    exact List.Forall₂.cons ⟨rfl, rfl, rfl⟩ (forall2_append ih1 ih2)

theorem walkFlats_attr (enc : Enc) (l : List Node) (lvl : Nat) :
    ∀ f ∈ walkFlats l lvl enc,
      (f.marker_first = M_COLLAPSED ∨ f.marker_first = M_EXPANDED)
        ∧ f.attr ≠ 0xff ∧ ((f.attr &&& A_NOTE ≠ 0) ↔ f.note.isSome) := by
  induction l, lvl, enc using walkFlats.induct with
  | case1 lvl enc => simp [walkFlats]
  | case2 t no co fl ch rest lvl enc ih1 ih2 =>
    simp only [walkFlats, if_true]
    intro f hf
    rcases List.mem_append.mp hf with h | h
    · exact ih1 f h
    · exact ih2 f h
  | case3 t no co fl syn ch rest lvl enc hsyn ih1 ih2 =>
    simp only [walkFlats]
    rw [if_neg hsyn]
    intro f hf
    rcases List.mem_cons.mp hf with h | h
    · subst h
      refine ⟨?_, ?_, ?_⟩
      · cases co <;> simp
      · cases no <;> cases fl.selected <;> cases rest.isEmpty <;>
          (simp [A_NOTE, A_CURSOR, A_SIBFOLLOWS]; try decide)
      · cases no <;> cases fl.selected <;> cases rest.isEmpty <;>
          (simp [A_NOTE, A_CURSOR, A_SIBFOLLOWS]; try decide)
    · rcases List.mem_append.mp h with h2 | h2
      · exact ih1 f h2
      · exact ih2 f h2

theorem encode_heading_lt (text : List Nat) :
    ∀ b ∈ encode_heading_from_text text, b < 0x80 := by
  intro b hb
  simp only [encode_heading_from_text, List.mem_map] at hb
  obtain ⟨c, _, rfl⟩ := hb
  have : (if c < 0x80 then c else 0x3f) &&& 0x7f ≤ 0x7f := Nat.and_le_right
  omega

theorem encode_heading_length (text : List Nat) :
    (encode_heading_from_text text).length = text.length := by
  simp [encode_heading_from_text]

/-- The heading and note of every machine flat are those of one of the
records. -/
theorem pflatsAux_mem (recs : List Rec) :
    ∀ (bs : List Bool) (level : Int),
    ∀ p ∈ pflatsAux bs level recs, ∃ r ∈ recs, p.text = r.text ∧ p.note = r.note := by
  induction recs with
  | nil => intro bs level p hp; simp [pflatsAux] at hp
  | cons r rs ih =>
    intro bs level p hp
    simp only [pflatsAux, List.mem_cons] at hp
    rcases hp with h | h
    · exact ⟨r, by simp, by rw [h], by rw [h]⟩
    · obtain ⟨r2, hr2, ht, hn⟩ := ih _ _ p h
      exact ⟨r2, by simp [hr2], ht, hn⟩

theorem forall2_mem_right {α β : Type} {R : α → β → Prop} :
    ∀ {l1 : List α} {l2 : List β}, List.Forall₂ R l1 l2 →
    ∀ b ∈ l2, ∃ a ∈ l1, R a b := by
  intro l1 l2 h
  induction h with
  | nil => intro b hb; simp at hb
  | cons hab htail ih =>
    intro b hb
    rcases List.mem_cons.mp hb with h2 | h2
    · subst h2; exact ⟨_, by simp, hab⟩
    · obtain ⟨a, ha, hr⟩ := ih b h2
      exact ⟨a, by simp [ha], hr⟩

/-! ### Decoding the serialized bytes -/

theorem findFF_clean_append (xs ys : List Nat) (h : ∀ b ∈ xs, b ≠ 0xff) :
    findFF (xs ++ 0xff :: ys) = some xs.length := by
  induction xs with
  | nil => simp [findFF]
  | cons b rest ih =>
    have hb : b ≠ 0xff := h b (by simp)
    simp only [List.cons_append, findFF, if_neg hb, List.append_eq]
    rw [ih (fun x hx => h x (by simp [hx]))]
    rfl

theorem getD_shift (pre mid : List Nat) (j d : Nat) :
    (pre ++ mid).getD (pre.length + j) d = mid.getD j d := by
  rw [List.getD_append_right _ _ _ _ (by omega)]
  congr 1
  omega

theorem getD_shift0 (pre mid : List Nat) (d : Nat) :
    (pre ++ mid).getD pre.length d = mid.getD 0 d := by
  have h := getD_shift pre mid 0 d
  rwa [Nat.add_zero] at h

theorem drop_append_le (l1 l2 : List Nat) (m : Nat) (h : m ≤ l1.length) :
    (l1 ++ l2).drop m = l1.drop m ++ l2 := by
  rw [List.drop_append_eq_append_drop]
  simp [Nat.sub_eq_zero_of_le h]

/-- Byte count of one serialized record (under the in-range note). -/
theorem recBytes_length (f : EFlat) (d : Int)
    (hn : ∀ nb, f.note = some nb → nb.length ≤ 0xFFFF) :
    (recBytes f d).length
      = f.text.length + 6
        + (match f.note with | some nb => 2 + nb.length | none => 0) := by
  unfold recBytes
  rcases hno : f.note with _ | nb
  · simp [i16le, u16le]
  · have hlen : nb.length ≤ 0xFFFF := hn nb hno
    simp only [hlen, ite_true, List.length_append, u16le, i16le, List.length_cons,
      List.length_nil, List.length_take]
    omega

/-- One serialized record consumes one decode-loop iteration: starting
at its first byte, the loop accepts the heading, header and note bytes
and recurses right after them with the re-decoded record accumulated. -/
theorem parseLoop_step (enc : Enc) (pre : List Nat) (f : EFlat) (d : Int)
    (tailL : List Nat) (fuel : Nat) (acc : List Rec)
    (hwf : EFlatWF f) (hd1 : -32768 ≤ d) (hd2 : d ≤ 32767) (htl : tailL ≠ []) :
    ∃ r : Rec,
      parseLoop (pre ++ (recBytes f d ++ tailL)) enc (fuel + 1) pre.length acc
        = parseLoop (pre ++ (recBytes f d ++ tailL)) enc fuel
            (pre.length + (recBytes f d).length) (r :: acc)
      ∧ coreOf r
        = { text := decode_heading f.text, delta := d,
            note := f.note.map (fun nb => decode_note nb enc),
            collapsed := f.marker_first + 256 * 0xff == 0xFFFE,
            flags := mkFlags f.attr } := by
  obtain ⟨hT, hTlen, hmark, hattr, hbit, hnlen⟩ := hwf
  obtain ⟨lo, hi, hlh⟩ : ∃ lo hi, i16le d = [lo, hi] := ⟨_, _, rfl⟩
  have hdelta : i16val lo hi = d := by
    have h := i16val_i16le d hd1 hd2
    rw [hlh] at h
    exact h
  have htlen : 1 ≤ tailL.length := List.length_pos.mpr htl
  rcases hno : f.note with _ | nb
  · have hrb : recBytes f d = f.text ++ [255, f.attr, f.marker_first, 255, lo, hi] := by
      unfold recBytes
      rw [hno, hlh]
      simp
    have hlen_rb : (recBytes f d).length = f.text.length + 6 := by
      rw [hrb]
      simp
    have hlenB : (pre ++ (recBytes f d ++ tailL)).length
        = pre.length + f.text.length + 6 + tailL.length := by
      rw [hrb]
      simp [List.length_append]
      omega
    have hB2 : pre ++ (recBytes f d ++ tailL)
        = (pre ++ f.text) ++ ([255, f.attr, f.marker_first, 255, lo, hi] ++ tailL) := by
      rw [hrb]
      simp [List.append_assoc]
    have hdrop : (pre ++ (recBytes f d ++ tailL)).drop pre.length
        = f.text ++ (255 :: ([f.attr, f.marker_first, 255, lo, hi] ++ tailL)) := by
      rw [List.drop_left pre _, hrb]
      simp [List.append_assoc]
    have hft : findTerm (pre ++ (recBytes f d ++ tailL)) pre.length
        = some (f.text.length + pre.length) := by
      unfold findTerm
      rw [hdrop, findFF_clean_append f.text _ hT]
      rfl
    have hgp : ∀ (j d' : Nat),
        (pre ++ (recBytes f d ++ tailL)).getD (f.text.length + pre.length + j) d'
          = ([255, f.attr, f.marker_first, 255, lo, hi] ++ tailL).getD j d' := by
      intro j d'
      rw [hB2, show f.text.length + pre.length + j = (pre ++ f.text).length + j from by
        rw [List.length_append]; omega]
      exact getD_shift _ _ _ _
    have hc1 : pre.length < (pre ++ (recBytes f d ++ tailL)).length := by
      rw [hlenB]; omega
    have hs1 : ¬(pre.length = (pre ++ (recBytes f d ++ tailL)).length - 1
        ∧ (pre ++ (recBytes f d ++ tailL)).getD pre.length 0 = 0x1a) := by
      rintro ⟨h, -⟩
      rw [hlenB] at h
      omega
    have hs2 : ¬(pre.length + 2 < (pre ++ (recBytes f d ++ tailL)).length
        ∧ (pre ++ (recBytes f d ++ tailL)).getD pre.length 0 = 0xff
        ∧ (pre ++ (recBytes f d ++ tailL)).getD (pre.length + 1) 0 = 0xff
        ∧ (pre ++ (recBytes f d ++ tailL)).getD (pre.length + 2) 0 = 0x1a) := by
      rintro ⟨-, h0, h1, -⟩
      rcases htext : f.text with _ | ⟨b0, btext⟩
      · have := hgp 1 0
        rw [htext] at this
        simp only [List.length_nil, Nat.zero_add, List.cons_append,
          List.getD_cons_succ, List.getD_cons_zero] at this
        rw [this] at h1
        exact hattr h1
      · have h00 := getD_shift0 pre (recBytes f d ++ tailL) 0
        rw [h00] at h0
        rw [hrb, htext] at h0
        simp only [List.cons_append, List.getD_cons_zero] at h0
        exact hT b0 (by rw [htext]; simp) h0
    simp only [parseLoop]
    rw [if_pos hc1, if_neg hs1, if_neg hs2, hft]
    simp only []
    rw [if_neg (show ¬(f.text.length + pre.length + 4
      ≥ (pre ++ (recBytes f d ++ tailL)).length) from by rw [hlenB]; omega)]
    simp only [hgp, List.cons_append, List.getD_cons_zero, List.getD_cons_succ]
    rw [if_neg (show ¬((255:Nat) ≠ 255
        ∨ (f.marker_first ≠ M_EXPANDED ∧ f.marker_first ≠ M_COLLAPSED)) from by
      rintro (h | ⟨h1, h2⟩)
      · exact h rfl
      · rcases hmark with h3 | h3
        · exact h2 h3
        · exact h1 h3)]
    rw [if_pos (show f.text.length + pre.length + 5
      < (pre ++ (recBytes f d ++ tailL)).length from by rw [hlenB]; omega)]
    simp only [show f.text.length + pre.length - pre.length = f.text.length from by omega]
    rw [show ((pre ++ (recBytes f d ++ tailL)).drop pre.length).take f.text.length
      = f.text from by rw [hdrop]; exact List.take_left _ _]
    rw [if_neg (show ¬(f.text.length > MAX_TEXTLEN) from by omega)]
    rw [if_neg (show ¬(f.attr &&& A_NOTE ≠ 0) from by
      intro hcon
      have := hbit.mp hcon
      rw [hno] at this
      simp at this)]
    rw [hdelta]
    rw [show f.text.length + pre.length + 6 = pre.length + (recBytes f d).length from by
      rw [hlen_rb]; omega]
    refine ⟨_, rfl, ?_⟩
    simp [coreOf, hno]
  · have hnb : nb.length ≤ 0xFFFF := hnlen nb hno
    obtain ⟨nl0, nl1, hul⟩ : ∃ a b, u16le nb.length = [a, b] := ⟨_, _, rfl⟩
    have hnl : nl0 + 256 * nl1 = nb.length := by
      have h := u16le_getD nb.length (by omega)
      rw [hul] at h
      exact h
    have hrb : recBytes f d
        = f.text ++ (255 :: f.attr :: f.marker_first :: 255 :: lo :: hi
            :: nl0 :: nl1 :: nb) := by
      unfold recBytes
      rw [hno, hlh]
      simp [hnb, List.take_length, hul, List.append_assoc]
    have hlen_rb : (recBytes f d).length = f.text.length + 8 + nb.length := by
      rw [hrb]
      simp
      omega
    have hlenB : (pre ++ (recBytes f d ++ tailL)).length
        = pre.length + f.text.length + 8 + nb.length + tailL.length := by
      rw [hrb]
      simp [List.length_append]
      omega
    have hB2 : pre ++ (recBytes f d ++ tailL)
        = (pre ++ f.text) ++ (255 :: f.attr :: f.marker_first :: 255 :: lo :: hi
            :: nl0 :: nl1 :: (nb ++ tailL)) := by
      rw [hrb]
      simp [List.append_assoc]
    have hB3 : pre ++ (recBytes f d ++ tailL)
        = ((pre ++ f.text) ++ [255, f.attr, f.marker_first, 255, lo, hi, nl0, nl1])
            ++ (nb ++ tailL) := by
      rw [hrb]
      simp [List.append_assoc]
    have hdrop : (pre ++ (recBytes f d ++ tailL)).drop pre.length
        = f.text ++ (255 :: (f.attr :: f.marker_first :: 255 :: lo :: hi
            :: nl0 :: nl1 :: (nb ++ tailL))) := by
      rw [List.drop_left pre _, hrb]
      simp [List.append_assoc]
    have hdrop8 : (pre ++ (recBytes f d ++ tailL)).drop (f.text.length + pre.length + 8)
        = nb ++ tailL := by
      rw [hB3, show f.text.length + pre.length + 8
        = ((pre ++ f.text) ++ [255, f.attr, f.marker_first, 255, lo, hi, nl0, nl1]).length
        from by simp [List.length_append]; omega]
      exact List.drop_left _ _
    have hft : findTerm (pre ++ (recBytes f d ++ tailL)) pre.length
        = some (f.text.length + pre.length) := by
      unfold findTerm
      rw [hdrop, findFF_clean_append f.text _ hT]
      rfl
    have hgp : ∀ (j d' : Nat),
        (pre ++ (recBytes f d ++ tailL)).getD (f.text.length + pre.length + j) d'
          = (255 :: f.attr :: f.marker_first :: 255 :: lo :: hi
              :: nl0 :: nl1 :: (nb ++ tailL)).getD j d' := by
      intro j d'
      rw [hB2, show f.text.length + pre.length + j = (pre ++ f.text).length + j from by
        rw [List.length_append]; omega]
      exact getD_shift _ _ _ _
    have hc1 : pre.length < (pre ++ (recBytes f d ++ tailL)).length := by
      rw [hlenB]; omega
    have hs1 : ¬(pre.length = (pre ++ (recBytes f d ++ tailL)).length - 1
        ∧ (pre ++ (recBytes f d ++ tailL)).getD pre.length 0 = 0x1a) := by
      rintro ⟨h, -⟩
      rw [hlenB] at h
      omega
    have hs2 : ¬(pre.length + 2 < (pre ++ (recBytes f d ++ tailL)).length
        ∧ (pre ++ (recBytes f d ++ tailL)).getD pre.length 0 = 0xff
        ∧ (pre ++ (recBytes f d ++ tailL)).getD (pre.length + 1) 0 = 0xff
        ∧ (pre ++ (recBytes f d ++ tailL)).getD (pre.length + 2) 0 = 0x1a) := by
      rintro ⟨-, h0, h1, -⟩
      rcases htext : f.text with _ | ⟨b0, btext⟩
      · have := hgp 1 0
        rw [htext] at this
        simp only [List.length_nil, Nat.zero_add, List.getD_cons_succ,
          List.getD_cons_zero] at this
        rw [this] at h1
        exact hattr h1
      · have h00 := getD_shift0 pre (recBytes f d ++ tailL) 0
        rw [h00] at h0
        rw [hrb, htext] at h0
        simp only [List.cons_append, List.getD_cons_zero] at h0
        exact hT b0 (by rw [htext]; simp) h0
    simp only [parseLoop]
    rw [if_pos hc1, if_neg hs1, if_neg hs2, hft]
    simp only []
    rw [if_neg (show ¬(f.text.length + pre.length + 4
      ≥ (pre ++ (recBytes f d ++ tailL)).length) from by rw [hlenB]; omega)]
    simp only [hgp, List.getD_cons_zero, List.getD_cons_succ]
    rw [if_neg (show ¬((255:Nat) ≠ 255
        ∨ (f.marker_first ≠ M_EXPANDED ∧ f.marker_first ≠ M_COLLAPSED)) from by
      rintro (h | ⟨h1, h2⟩)
      · exact h rfl
      · rcases hmark with h3 | h3
        · exact h2 h3
        · exact h1 h3)]
    rw [if_pos (show f.text.length + pre.length + 5
      < (pre ++ (recBytes f d ++ tailL)).length from by rw [hlenB]; omega)]
    simp only [show f.text.length + pre.length - pre.length = f.text.length from by omega]
    rw [show ((pre ++ (recBytes f d ++ tailL)).drop pre.length).take f.text.length
      = f.text from by rw [hdrop]; exact List.take_left _ _]
    rw [if_neg (show ¬(f.text.length > MAX_TEXTLEN)  from by omega)]
    rw [if_pos (show f.attr &&& A_NOTE ≠ 0 from hbit.mpr (by rw [hno]; rfl))]
    rw [if_neg (show ¬(f.text.length + pre.length + 6 + 2
      > (pre ++ (recBytes f d ++ tailL)).length) from by rw [hlenB]; omega)]
    rw [hnl]
    rw [if_neg (show ¬(nb.length > MAX_NOTELEN) from by
      rw [show MAX_NOTELEN = 65535 from rfl]; omega)]
    rw [if_neg (show ¬(f.text.length + pre.length + 8 + nb.length
      > (pre ++ (recBytes f d ++ tailL)).length) from by rw [hlenB]; omega)]
    rw [hdelta]
    rw [show ((pre ++ (recBytes f d ++ tailL)).drop (f.text.length + pre.length + 8)).take
        nb.length = nb from by rw [hdrop8]; exact List.take_left _ _]
    rw [show f.text.length + pre.length + 8 + nb.length
      = pre.length + (recBytes f d).length from by rw [hlen_rb]; omega]
    refine ⟨_, rfl, ?_⟩
    simp [coreOf, hno]

/-- The decode loop, started at the record region of a serialized flat
list, returns exactly the re-decoded records. -/
theorem parseLoop_flats (enc : Enc) :
    ∀ (FL : List EFlat) (fuel : Nat) (pre : List Nat) (prev : Int) (acc : List Rec),
    (∀ f ∈ FL, EFlatWF f) → FL.length + 1 ≤ fuel →
    ∃ recs2 : List Rec,
      parseLoop (pre ++ (flatsBytes FL prev ++ [0x1a])) enc fuel pre.length acc
        = ParseResult.ok (acc.reverse ++ recs2)
      ∧ recs2.map coreOf = coresFromFlats FL prev enc := by
  intro FL
  induction FL with
  | nil =>
    intro fuel pre prev acc _ hfuel
    refine ⟨[], ?_, rfl⟩
    obtain ⟨f2, rfl⟩ : ∃ f2, fuel = f2 + 1 := ⟨fuel - 1, by omega⟩
    simp only [flatsBytes, List.nil_append]
    simp [parseLoop, getD_shift0]
  | cons f FL2 ih =>
    intro fuel pre prev acc hwf hfuel
    obtain ⟨f2, rfl⟩ : ∃ f2, fuel = f2 + 1 := ⟨fuel - 1, by omega⟩
    have hwf1 : EFlatWF f := hwf f (by simp)
    have hwf2 : ∀ x ∈ FL2, EFlatWF x := fun x hx => hwf x (by simp [hx])
    have hassoc : pre ++ (flatsBytes (f :: FL2) prev ++ [0x1a])
        = pre ++ (recBytes f (toI16 ((f.level : Int) - prev) )
            ++ (flatsBytes FL2 (f.level : Int) ++ [0x1a])) := by
      simp only [flatsBytes, List.append_assoc]
    obtain ⟨r, hstep, hcore⟩ := parseLoop_step enc pre f
      (toI16 ((f.level : Int) - prev)) (flatsBytes FL2 (f.level : Int) ++ [0x1a])
      f2 acc hwf1 (toI16_lb _) (toI16_ub _) (by simp)
    rw [hassoc, hstep]
    have hre : pre ++ (recBytes f (toI16 ((f.level : Int) - prev))
          ++ (flatsBytes FL2 (f.level : Int) ++ [0x1a]))
        = (pre ++ recBytes f (toI16 ((f.level : Int) - prev)))
            ++ (flatsBytes FL2 (f.level : Int) ++ [0x1a]) := by
      simp [List.append_assoc]
    have hlen : pre.length + (recBytes f (toI16 ((f.level : Int) - prev))).length
        = (pre ++ recBytes f (toI16 ((f.level : Int) - prev))).length := by
      simp
    rw [hre, hlen]
    obtain ⟨recs2, hrun, hcores⟩ := ih f2
      (pre ++ recBytes f (toI16 ((f.level : Int) - prev))) (f.level : Int)
      (r :: acc) hwf2 (by simp at hfuel ⊢; omega)
    rw [hrun]
    refine ⟨r :: recs2, ?_, ?_⟩
    · rw [List.reverse_cons, List.append_assoc]
      rfl
    · simp only [List.map_cons, hcores, coresFromFlats, hcore]

theorem flatsBytes_length_ge :
    ∀ (FL : List EFlat) (prev : Int), FL.length ≤ (flatsBytes FL prev).length := by
  intro FL
  induction FL with
  | nil => intro prev; simp [flatsBytes]
  | cons f rest ih =>
    intro prev
    simp only [flatsBytes, List.length_append, List.length_cons]
    have hr : 1 ≤ (recBytes f (toI16 ((f.level : Int) - prev))).length := by
      unfold recBytes
      rcases f.note with _ | nb <;> (simp [i16le, u16le]; try omega)
    have h2 := ih (f.level : Int)
    omega

/-- fn parse_otl applied to a serialized flat list: the magic and
preamble are recognised and the decode returns the re-decoded records. -/
theorem parse_otl_serialize (enc : Enc) (FL : List EFlat)
    (hwf : ∀ f ∈ FL, EFlatWF f) :
    ∃ recs2 : List Rec,
      parse_otl (MAGIC ++ PREAMBLE ++ flatsBytes FL 0 ++ [0x1a]) enc
        = ParseResult.ok recs2
      ∧ recs2.map coreOf = coresFromFlats FL 0 enc := by
  have hassoc : MAGIC ++ PREAMBLE ++ flatsBytes FL 0 ++ [0x1a]
      = (MAGIC ++ PREAMBLE) ++ (flatsBytes FL 0 ++ [0x1a]) := by
    simp [List.append_assoc]
  have hlen9 : (MAGIC ++ PREAMBLE).length = 9 := rfl
  have hfuel : FL.length + 1
      ≤ (MAGIC ++ PREAMBLE ++ flatsBytes FL 0 ++ [0x1a]).length + 1 := by
    have h := flatsBytes_length_ge FL 0
    simp only [List.length_append]
    omega
  obtain ⟨recs2, hrun, hcores⟩ := parseLoop_flats enc FL
    ((MAGIC ++ PREAMBLE ++ flatsBytes FL 0 ++ [0x1a]).length + 1)
    (MAGIC ++ PREAMBLE) 0 [] hwf hfuel
  refine ⟨recs2, ?_, hcores⟩
  unfold parse_otl
  simp only []
  have hb : MAGIC ++ PREAMBLE ++ flatsBytes FL 0 ++ [0x1a]
      = MAGIC ++ (PREAMBLE ++ (flatsBytes FL 0 ++ [0x1a])) := by
    simp [List.append_assoc]
  have h3 : List.take 3 (MAGIC ++ PREAMBLE ++ flatsBytes FL 0 ++ [0x1a]) = MAGIC := by
    rw [hb, show (3 : Nat) = MAGIC.length from rfl]
    exact List.take_left _ _
  have hlen3 : 3 ≤ (MAGIC ++ PREAMBLE ++ flatsBytes FL 0 ++ [0x1a]).length := by
    simp [MAGIC, PREAMBLE, List.length_append]
  have h6 : List.take 6 (List.drop 3 (MAGIC ++ PREAMBLE ++ flatsBytes FL 0 ++ [0x1a]))
      = PREAMBLE := by
    rw [hb, show (3 : Nat) = MAGIC.length from rfl, List.drop_left,
      show (6 : Nat) = PREAMBLE.length from rfl]
    exact List.take_left _ _
  have hlen6 : 3 + 6 ≤ (MAGIC ++ PREAMBLE ++ flatsBytes FL 0 ++ [0x1a]).length := by
    simp [MAGIC, PREAMBLE, List.length_append]
  simp only [h3, hlen3, h6, hlen6, eq_self_iff_true, and_self, and_true, true_and,
    if_true, ite_true]
  rw [hassoc] at hrun ⊢
  try rw [show (3 + 6 : Nat) = (MAGIC ++ PREAMBLE).length from rfl]
  try rw [show (9 : Nat) = (MAGIC ++ PREAMBLE).length from rfl]
  rw [hrun]
  rfl

/-! ### Well-formedness of decoded records (latin1 / ascii) -/

theorem and127_eq_self (c : Nat) (h : c < 128) : c &&& 127 = c := by
  rw [show (127 : Nat) = 2 ^ 7 - 1 from rfl]
  exact Nat.and_pow_two_sub_one_of_lt_two_pow h

theorem and128_eq_zero (c : Nat) (h : c < 128) : c &&& 128 = 0 := by
  rw [show (128 : Nat) = 2 ^ 7 from rfl, Nat.and_two_pow, Nat.testBit_lt_two_pow h]
  rfl

theorem and127_lt (c : Nat) : c &&& 127 < 128 := by
  have : c &&& 127 ≤ 127 := Nat.and_le_right
  omega

theorem decode_heading_lt (bytes : List Nat) :
    ∀ c ∈ decode_heading bytes, c < 128 := by
  induction bytes with
  | nil => intro c hc; simp [decode_heading] at hc
  | cons b rest ih =>
    intro c hc
    simp only [decode_heading] at hc
    rcases List.mem_cons.mp hc with h | h
    · subst h; exact and127_lt b
    · split at h
      · rcases List.mem_cons.mp h with h2 | h2
        · omega
        · exact ih c h2
      · exact ih c h

theorem textRT_of_lt (s : List Nat) (h : ∀ c ∈ s, c < 128) : TextRT s := by
  unfold TextRT
  have henc : encode_heading_from_text s = s := by
    unfold encode_heading_from_text
    rw [List.map_congr_left (fun c hc => ?_), List.map_id]
    rw [if_pos (h c hc)]
    exact and127_eq_self c (h c hc)
  rw [henc]
  clear henc
  induction s with
  | nil => rfl
  | cons c rest ih =>
    have hc : c < 128 := h c (by simp)
    simp only [decode_heading, and127_eq_self c hc, and128_eq_zero c hc]
    rw [if_neg (by simp)]
    rw [ih (fun x hx => h x (by simp [hx]))]

theorem utf8Bytes_of_lt (s : List Nat) (h : ∀ c ∈ s, c < 128) :
    utf8Bytes s = s := by
  unfold utf8Bytes
  induction s with
  | nil => rfl
  | cons c rest ih =>
    have hc : c < 128 := h c (by simp)
    simp only [List.flatMap_cons, utf8EncChar, if_pos hc]
    rw [ih (fun x hx => h x (by simp [hx]))]
    rfl

theorem noteRT_latin1 (s : List Nat) (h : ∀ c ∈ s, c < 256) (hl : s.length ≤ 65535) :
    NoteRT Enc.latin1 (some s) := by
  unfold NoteRT
  have henc : encode_note_bytes s Enc.latin1 = s := by
    unfold encode_note_bytes
    simp only []
    rw [List.map_congr_left (fun c hc => if_pos (by have := h c hc; omega))]
    exact List.map_id' s
  simp only []
  rw [henc]
  exact ⟨rfl, hl⟩

theorem noteRT_ascii (s : List Nat) (h : ∀ c ∈ s, c < 128) (hl : s.length ≤ 65535) :
    NoteRT Enc.ascii (some s) := by
  unfold NoteRT
  have henc : encode_note_bytes s Enc.ascii = s := by
    unfold encode_note_bytes
    simp only []
    rw [utf8Bytes_of_lt s h]
    rw [List.map_congr_left (fun c hc => and127_eq_self c (h c hc))]
    exact List.map_id' s
  simp only []
  rw [henc]
  constructor
  · unfold decode_note
    simp only []
    rw [List.map_congr_left (fun c hc => and127_eq_self c (h c hc))]
    exact List.map_id' s
  · exact hl

theorem i16val_range (lo hi : Nat) (hlo : lo < 256) (hhi : hi < 256) :
    -32768 ≤ i16val lo hi ∧ i16val lo hi ≤ 32767 := by
  unfold i16val
  simp only []
  split <;> constructor <;> push_cast <;> omega

theorem getD_lt (buf : List Nat) (hb : ∀ b ∈ buf, b < 256) (n : Nat) :
    buf.getD n 0 < 256 := by
  rw [List.getD_eq_getElem?_getD]
  rcases h : buf[n]? with _ | b
  · simp
  · simp only [Option.getD_some]
    exact hb b (List.getElem?_mem h)

theorem mem_take_drop {buf : List Nat} {i n : Nat} :
    ∀ b ∈ (buf.drop i).take n, b ∈ buf := fun _ hb =>
  List.mem_of_mem_drop (List.mem_of_mem_take hb)

/-- One iteration of the decode loop: it stops with ok on the current
reversed accumulator, fails, hits the unchecked access, skips without
accumulating, or accumulates one record whose heading, note and delta
come from buffer slices in the stated shapes. -/
theorem parseLoop_cases (buf : List Nat) (enc : Enc) (fuel i : Nat) (acc : List Rec) :
    parseLoop buf enc (fuel + 1) i acc = ParseResult.ok acc.reverse
    ∨ (∃ e, parseLoop buf enc (fuel + 1) i acc = ParseResult.err e)
    ∨ parseLoop buf enc (fuel + 1) i acc = ParseResult.oob
    ∨ (∃ i2, parseLoop buf enc (fuel + 1) i acc = parseLoop buf enc fuel i2 acc)
    ∨ (∃ i2 r, parseLoop buf enc (fuel + 1) i acc = parseLoop buf enc fuel i2 (r :: acc)
        ∧ (∃ j n, r.text = decode_heading ((buf.drop j).take n))
        ∧ (r.note = none ∨ ∃ j n, n ≤ 65535
            ∧ r.note = some (decode_note ((buf.drop j).take n) enc))
        ∧ (∃ a b, r.delta = i16val (buf.getD a 0) (buf.getD b 0))) := by
  generalize hres : parseLoop buf enc (fuel + 1) i acc = res
  rw [parseLoop] at hres
  by_cases h1 : i < buf.length
  case neg =>
    rw [if_neg h1] at hres
    subst res
    exact Or.inl rfl
  rw [if_pos h1] at hres
  by_cases h2 : i = buf.length - 1 ∧ buf.getD i 0 = 0x1a
  case pos =>
    rw [if_pos h2] at hres
    subst res
    exact Or.inl rfl
  rw [if_neg h2] at hres
  by_cases h3 : i + 2 < buf.length ∧ buf.getD i 0 = 0xff ∧ buf.getD (i + 1) 0 = 0xff
      ∧ buf.getD (i + 2) 0 = 0x1a
  case pos =>
    rw [if_pos h3] at hres
    subst res
    exact Or.inl rfl
  rw [if_neg h3] at hres
  rcases hft : findTerm buf i with _ | k
  next =>
    rw [hft] at hres
    simp only [] at hres
    subst res
    exact Or.inr (Or.inl ⟨_, rfl⟩)
  rw [hft] at hres
  simp only [] at hres
  by_cases h4 : k + 4 ≥ buf.length
  case pos =>
    rw [if_pos h4] at hres
    subst res
    exact Or.inr (Or.inl ⟨_, rfl⟩)
  rw [if_neg h4] at hres
  by_cases h5 : buf.getD (k + 3) 0 ≠ 0xff
      ∨ (buf.getD (k + 2) 0 ≠ M_EXPANDED ∧ buf.getD (k + 2) 0 ≠ M_COLLAPSED)
  case pos =>
    rw [if_pos h5] at hres
    subst res
    exact Or.inr (Or.inr (Or.inr (Or.inl ⟨_, rfl⟩)))
  rw [if_neg h5] at hres
  by_cases h6 : k + 5 < buf.length
  case neg =>
    rw [if_neg h6] at hres
    subst res
    exact Or.inr (Or.inr (Or.inl rfl))
  rw [if_pos h6] at hres
  by_cases h7 : k - i > MAX_TEXTLEN
  case pos =>
    rw [if_pos h7] at hres
    subst res
    exact Or.inr (Or.inl ⟨_, rfl⟩)
  rw [if_neg h7] at hres
  by_cases h8 : buf.getD (k + 1) 0 &&& A_NOTE ≠ 0
  case neg =>
    rw [if_neg h8] at hres
    subst res
    refine Or.inr (Or.inr (Or.inr (Or.inr ⟨_, _, rfl, ⟨i, k - i, rfl⟩, Or.inl rfl,
      ⟨k + 4, k + 5, rfl⟩⟩)))
  rw [if_pos h8] at hres
  by_cases h9 : k + 6 + 2 > buf.length
  case pos =>
    rw [if_pos h9] at hres
    subst res
    exact Or.inr (Or.inl ⟨_, rfl⟩)
  rw [if_neg h9] at hres
  by_cases h10 : buf.getD (k + 6) 0 + 256 * buf.getD (k + 7) 0 > MAX_NOTELEN
  case pos =>
    rw [if_pos h10] at hres
    subst res
    exact Or.inr (Or.inl ⟨_, rfl⟩)
  rw [if_neg h10] at hres
  by_cases h11 : k + 8 + (buf.getD (k + 6) 0 + 256 * buf.getD (k + 7) 0) > buf.length
  case pos =>
    rw [if_pos h11] at hres
    subst res
    exact Or.inr (Or.inl ⟨_, rfl⟩)
  rw [if_neg h11] at hres
  subst res
  refine Or.inr (Or.inr (Or.inr (Or.inr ⟨_, _, rfl, ⟨i, k - i, rfl⟩,
    Or.inr ⟨k + 8, buf.getD (k + 6) 0 + 256 * buf.getD (k + 7) 0, ?_, rfl⟩,
    ⟨k + 4, k + 5, rfl⟩⟩)))
  rw [show MAX_NOTELEN = 65535 from rfl] at h10
  omega

/-- Every record the decode loop returns under latin1 or ascii has a
round-tripping heading and note and an in-range delta. -/
theorem parseLoop_wf (enc : Enc) (buf : List Nat) (hb : ∀ b ∈ buf, b < 256)
    (henc : enc = Enc.latin1 ∨ enc = Enc.ascii) :
    ∀ (fuel : Nat) (i : Nat) (acc recs : List Rec),
    (∀ r ∈ acc, RecRT enc r) →
    parseLoop buf enc fuel i acc = ParseResult.ok recs →
    ∀ r ∈ recs, RecRT enc r := by
  have hnote : ∀ (j n : Nat), n ≤ 65535 →
      NoteRT enc (some (decode_note ((buf.drop j).take n) enc)) := by
    intro j n hn
    have hmem : ∀ b ∈ (buf.drop j).take n, b < 256 :=
      fun b hbm => hb b (mem_take_drop b hbm)
    have hlt : ((buf.drop j).take n).length ≤ n := List.length_take_le _ _
    rcases henc with rfl | rfl
    · unfold decode_note
      simp only []
      exact noteRT_latin1 _ hmem (by omega)
    · unfold decode_note
      simp only []
      refine noteRT_ascii _ (fun c hc => ?_) (by simp; omega)
      obtain ⟨b, _, rfl⟩ := List.mem_map.mp hc
      exact and127_lt b
  have htext : ∀ (j n : Nat), TextRT (decode_heading ((buf.drop j).take n)) :=
    fun j n => textRT_of_lt _ (decode_heading_lt _)
  have hdel : ∀ (a b : Nat),
      -32768 ≤ i16val (buf.getD a 0) (buf.getD b 0)
        ∧ i16val (buf.getD a 0) (buf.getD b 0) ≤ 32767 :=
    fun a b => i16val_range _ _ (getD_lt buf hb a) (getD_lt buf hb b)
  intro fuel
  induction fuel with
  | zero =>
    intro i acc recs _ h
    simp [parseLoop] at h
  | succ fuel ih =>
    intro i acc recs hacc h
    rcases parseLoop_cases buf enc fuel i acc with hc | ⟨e, hc⟩ | hc | ⟨i2, hc⟩
      | ⟨i2, r, hc, ⟨j1, n1, ht⟩, hn, ⟨a, b, hd⟩⟩
    · rw [hc] at h
      injection h with h2
      subst h2
      intro r hr
      exact hacc r (List.mem_reverse.mp hr)
    · rw [hc] at h
      exact ParseResult.noConfusion h
    · rw [hc] at h
      exact ParseResult.noConfusion h
    · rw [hc] at h
      exact ih _ _ _ hacc h
    · rw [hc] at h
      refine ih _ _ _ ?_ h
      intro r2 hr2
      rcases List.mem_cons.mp hr2 with h2 | h2
      · subst h2
        refine ⟨?_, ?_, ?_, ?_⟩
        · rw [ht]; exact htext _ _
        · rcases hn with hn | ⟨j2, n2, hb65, hn⟩
          · rw [hn]; exact trivial
          · rw [hn]; exact hnote j2 n2 hb65
        · rw [hd]; exact (hdel a b).1
        · rw [hd]; exact (hdel a b).2
      · exact hacc r2 h2

theorem parse_otl_wf (enc : Enc) (buf : List Nat) (recs : List Rec)
    (hb : ∀ b ∈ buf, b < 256) (henc : enc = Enc.latin1 ∨ enc = Enc.ascii)
    (h : parse_otl buf enc = ParseResult.ok recs) :
    ∀ r ∈ recs, RecRT enc r := by
  unfold parse_otl at h
  exact parseLoop_wf enc buf hb henc _ _ _ _ (fun r hr => absurd hr (List.not_mem_nil r)) h

/-- Every flat the encoder emits for a built forest of round-tripping
records with in-bound headings is well formed for re-decoding. -/
theorem walkFlats_wf (enc : Enc) (recs : List Rec)
    (hrt : ∀ r ∈ recs, RecRT enc r)
    (htl : ∀ r ∈ recs, r.text.length ≤ MAX_TEXTLEN) :
    ∀ f ∈ walkFlats (buildSp recs) 0 enc, EFlatWF f := by
  intro f hf
  obtain ⟨p, hp, hlev, htex, hnot⟩ :=
    forall2_mem_right (walkFlats_forall2 enc (buildSp recs) 0) f hf
  rw [flatten_buildSp] at hp
  obtain ⟨r, hr, hpt, hpn⟩ := pflatsAux_mem recs _ _ p hp
  obtain ⟨hm, ha, hbit⟩ := walkFlats_attr enc (buildSp recs) 0 f hf
  refine ⟨?_, ?_, hm, ha, hbit, ?_⟩
  · rw [htex]
    intro b hbm
    have := encode_heading_lt p.text b hbm
    omega
  · rw [htex, encode_heading_length, hpt]
    exact htl r hr
  · intro nb hnb
    rw [hnot, hpn] at hnb
    rcases hrn : r.note with _ | s
    · rw [hrn] at hnb
      simp at hnb
    · rw [hrn] at hnb
      injection hnb with hnb2
      have hnb3 : encode_note_bytes s enc = nb := hnb2
      have hner := (hrt r hr).2.1
      rw [hrn] at hner
      unfold NoteRT at hner
      simp only [] at hner
      rw [hnb3] at hner
      exact hner.2

/-- The re-decoded record cores echo the machine flats they were
serialized from. -/
theorem echo_of_cores (enc : Enc) :
    ∀ (pl : List PFlat) (FL : List EFlat) (rs2 : List Rec) (prev : Int),
    List.Forall₂ (FlatMatch enc) pl FL →
    rs2.map coreOf = coresFromFlats FL prev enc →
    (∀ p ∈ pl, TextRT p.text ∧ NoteRT enc p.note) →
    Echo prev pl rs2 := by
  intro pl
  induction pl with
  | nil =>
    intro FL rs2 prev hf hc _
    cases hf
    unfold coresFromFlats at hc
    have := List.map_eq_nil_iff.mp hc
    unfold Echo
    exact this
  | cons p pl2 ih =>
    intro FL rs2 prev hf hc hprop
    cases hf with
    | cons hmatch htail =>
      rename_i F FL2
      obtain ⟨hlev, htex, hnot⟩ := hmatch
      rcases rs2 with _ | ⟨r1, rs2t⟩
      · simp [coresFromFlats] at hc
      · simp only [List.map_cons, coresFromFlats, List.cons.injEq] at hc
        obtain ⟨hcore, hctail⟩ := hc
        have hptext := hprop p (by simp)
        unfold Echo
        refine ⟨?_, ?_, ?_, ?_⟩
        · have := congrArg CoreRec.text hcore
          simp only [coreOf] at this
          rw [this, htex]
          exact hptext.1
        · have := congrArg CoreRec.note hcore
          simp only [coreOf] at this
          rw [this, hnot]
          rcases hpn : p.note with _ | s
          · rfl
          · have hnr := hptext.2
            rw [hpn] at hnr
            unfold NoteRT at hnr
            show some (decode_note (encode_note_bytes s enc) enc) = some s
            rw [hnr.1]
        · have := congrArg CoreRec.delta hcore
          simp only [coreOf] at this
          rw [this, hlev]
        · rw [show ((p.level : Int)) = ((F.level : Int)) from by rw [hlev]]
          exact ih FL2 rs2t (F.level : Int) htail hctail
            (fun q hq => hprop q (by simp [hq]))

/-- A machine-flat list that obeys the level discipline is reproduced
by the machine run on any record list echoing it. -/
theorem pflatsOf_echo (fl : List PFlat) (rs2 : List Rec)
    (hs : StepsOK (-1) fl) (he : Echo 0 fl rs2) :
    pflatsOf rs2 = fl := by
  cases fl with
  | nil =>
    unfold Echo at he
    subst he
    rfl
  | cons f0 fl2 =>
    obtain ⟨flev, ftext, fnote⟩ := f0
    obtain ⟨hcl, _, hs2⟩ := hs
    simp only [] at hcl hs2
    have hlev0 : flev = 0 := by omega
    subst hlev0
    unfold Echo at he
    rcases rs2 with _ | ⟨r1, rs2t⟩
    · exact he.elim
    · obtain ⟨ht, hn, hd, he2⟩ := he
      simp only [] at ht hn hd he2
      unfold pflatsOf
      simp only [pflatsAux]
      rw [hd]
      rw [show toI16 ((↑(0:Nat)) - 0) = 0 from by decide]
      rw [show (0 : Int) + 0 = 0 from by omega]
      rw [if_neg (by omega)]
      rw [show ((0:Int).toNat + 1) = 1 from by decide]
      simp only [List.take_succ_cons, List.take_zero, List.length_cons,
        List.length_nil]
      rw [show (1 - 1 : Nat) = 0 from rfl, List.replicate_zero, List.append_nil]
      rw [show countTrue [false] = 0 from rfl]
      rw [ht, hn]
      have hmid := pflatsAux_echo_mid fl2 rs2t 0 hs2 he2
      simp only [List.replicate_succ, List.replicate_zero, Nat.cast_zero] at hmid
      rw [show [false] ++ [true] = [false, true] from rfl]
      rw [hmid]

theorem pflats_props (enc : Enc) (recs : List Rec) (hrt : ∀ r ∈ recs, RecRT enc r) :
    ∀ p ∈ pflatsOf recs, TextRT p.text ∧ NoteRT enc p.note := by
  intro p hp
  obtain ⟨r, hr, hpt, hpn⟩ := pflatsAux_mem recs _ _ p hp
  obtain ⟨h1, h2, -, -⟩ := hrt r hr
  rw [hpt, hpn]
  exact ⟨h1, h2⟩

theorem stepsOK_pflatsOf (recs : List Rec) (hd : ∀ r ∈ recs, -32768 ≤ r.delta) :
    StepsOK (-1) (pflatsOf recs) := by
  have h := pflatsAux_stepsOK recs hd [false] 0 (by simp) (by omega)
  rw [show countTrue [false] = 0 from rfl] at h
  simp only [Nat.cast_zero, zero_sub] at h
  exact h

/-- C1, amended: for latin1 or ascii note encodings, a byte-valued
buffer, and a successful decode whose decoded headings fit the
MAX_TEXTLEN guard, serializing the built forest and re-decoding gives a
forest with the identical PlainAll rendering. -/
theorem C1_roundtrip_amended (enc : Enc) (buf : List Nat) (recs : List Rec)
    (t1 : List Node)
    (henc : enc = Enc.latin1 ∨ enc = Enc.ascii)
    (hb : ∀ b ∈ buf, b < 256)
    (hparse : parse_otl buf enc = ParseResult.ok recs)
    (htl : ∀ r ∈ recs, r.text.length ≤ MAX_TEXTLEN)
    (hbuild : build_tree recs = some t1) :
    ∃ (recs2 : List Rec) (t2 : List Node),
      parse_otl (serialize_tree_to_otl t1 enc) enc = ParseResult.ok recs2
      ∧ build_tree recs2 = some t2
      ∧ render_plain_all t2 0 = render_plain_all t1 0 := by
  have hrt : ∀ r ∈ recs, RecRT enc r := parse_otl_wf enc buf recs hb henc hparse
  have hdl : ∀ r ∈ recs, -32768 ≤ r.delta := fun r hr => (hrt r hr).2.2.1
  have ht1 : t1 = buildSp recs := by
    rw [build_tree_eq_buildSp] at hbuild
    exact (Option.some.inj hbuild).symm
  have hwfF : ∀ f ∈ walkFlats t1 0 enc, EFlatWF f := by
    rw [ht1]
    exact walkFlats_wf enc recs hrt htl
  obtain ⟨recs2, hok, hcores⟩ := parse_otl_serialize enc (walkFlats t1 0 enc) hwfF
  have hforall2 : List.Forall₂ (FlatMatch enc) (pflatsOf recs) (walkFlats t1 0 enc) := by
    have h := walkFlats_forall2 enc (buildSp recs) 0
    rw [flatten_buildSp] at h
    rw [ht1]
    exact h
  have hecho : Echo 0 (pflatsOf recs) recs2 :=
    echo_of_cores enc (pflatsOf recs) (walkFlats t1 0 enc) recs2 0
      hforall2 hcores (pflats_props enc recs hrt)
  have hsteps : StepsOK (-1) (pflatsOf recs) := stepsOK_pflatsOf recs hdl
  have hflats : pflatsOf recs2 = pflatsOf recs := pflatsOf_echo _ _ hsteps hecho
  refine ⟨recs2, buildSp recs2, ?_, build_tree_eq_buildSp recs2, ?_⟩
  · unfold serialize_tree_to_otl
    exact hok
  · rw [render_plain_all_eq_plainOfFlats, render_plain_all_eq_plainOfFlats,
      ht1, flatten_buildSp, flatten_buildSp, hflats]

/-- The single decoded record of the witness buffer for C1. -/
def c1wRec : Rec :=
  { text := [65], delta := 0, attr := 0, marker_u16 := 65535, collapsed := false,
    note := none, flags := mkFlags 0, off_text := 0, len_text := 1,
    off_terminator := 1, off_attr := 2, off_marker := 3, off_delta := 5,
    off_note_len := none, off_note := none, note_len := 0 }

/-- The forest built from the witness record. -/
def c1wTree : List Node := buildSp [c1wRec]

/-- Witness for C1_roundtrip_amended: a one-record latin1 file with
heading "A" decodes, re-serializes and re-decodes to the same PlainAll
text. -/
theorem C1_roundtrip_amended_witness :
    ∃ (recs2 : List Rec) (t2 : List Node),
      parse_otl (serialize_tree_to_otl c1wTree Enc.latin1) Enc.latin1
        = ParseResult.ok recs2
      ∧ build_tree recs2 = some t2
      ∧ render_plain_all t2 0 = render_plain_all c1wTree 0 :=
  C1_roundtrip_amended Enc.latin1 [65, 255, 0, 255, 255, 0, 0, 26] [c1wRec] c1wTree
    (Or.inl rfl) (by decide) (by decide) (by decide)
    (build_tree_eq_buildSp _)

/-- When the heading byte count exceeds MAX_TEXTLEN, the decode loop
fails with the oversized-heading error at that record. -/
theorem parseLoop_step_too_large (enc : Enc) (pre : List Nat) (f : EFlat) (d : Int)
    (tailL : List Nat) (fuel : Nat) (acc : List Rec)
    (hT : ∀ b ∈ f.text, b ≠ 0xff) (hbig : f.text.length > MAX_TEXTLEN)
    (hmark : f.marker_first = M_COLLAPSED ∨ f.marker_first = M_EXPANDED)
    (hattr : f.attr ≠ 0xff) (hno : f.note = none) (htl : tailL ≠ []) :
    parseLoop (pre ++ (recBytes f d ++ tailL)) enc (fuel + 1) pre.length acc
      = ParseResult.err PErr.headingTooLarge := by
  obtain ⟨lo, hi, hlh⟩ : ∃ lo hi, i16le d = [lo, hi] := ⟨_, _, rfl⟩
  have htlen : 1 ≤ tailL.length := List.length_pos.mpr htl
  have hrb : recBytes f d = f.text ++ [255, f.attr, f.marker_first, 255, lo, hi] := by
    unfold recBytes
    rw [hno, hlh]
    simp
  have hlenB : (pre ++ (recBytes f d ++ tailL)).length
      = pre.length + f.text.length + 6 + tailL.length := by
    rw [hrb]
    simp [List.length_append]
    omega
  have hB2 : pre ++ (recBytes f d ++ tailL)
      = (pre ++ f.text) ++ ([255, f.attr, f.marker_first, 255, lo, hi] ++ tailL) := by
    rw [hrb]
    simp [List.append_assoc]
  have hdrop : (pre ++ (recBytes f d ++ tailL)).drop pre.length
      = f.text ++ (255 :: ([f.attr, f.marker_first, 255, lo, hi] ++ tailL)) := by
    rw [List.drop_left pre _, hrb]
    simp [List.append_assoc]
  have hft : findTerm (pre ++ (recBytes f d ++ tailL)) pre.length
      = some (f.text.length + pre.length) := by
    unfold findTerm
    rw [hdrop, findFF_clean_append f.text _ hT]
    rfl
  have hgp : ∀ (j d' : Nat),
      (pre ++ (recBytes f d ++ tailL)).getD (f.text.length + pre.length + j) d'
        = ([255, f.attr, f.marker_first, 255, lo, hi] ++ tailL).getD j d' := by
    intro j d'
    rw [hB2, show f.text.length + pre.length + j = (pre ++ f.text).length + j from by
      rw [List.length_append]; omega]
    exact getD_shift _ _ _ _
  have hc1 : pre.length < (pre ++ (recBytes f d ++ tailL)).length := by
    rw [hlenB]; omega
  have hs1 : ¬(pre.length = (pre ++ (recBytes f d ++ tailL)).length - 1
      ∧ (pre ++ (recBytes f d ++ tailL)).getD pre.length 0 = 0x1a) := by
    rintro ⟨h, -⟩
    rw [hlenB] at h
    omega
  have hs2 : ¬(pre.length + 2 < (pre ++ (recBytes f d ++ tailL)).length
      ∧ (pre ++ (recBytes f d ++ tailL)).getD pre.length 0 = 0xff
      ∧ (pre ++ (recBytes f d ++ tailL)).getD (pre.length + 1) 0 = 0xff
      ∧ (pre ++ (recBytes f d ++ tailL)).getD (pre.length + 2) 0 = 0x1a) := by
    rintro ⟨-, h0, h1, -⟩
    rcases htext : f.text with _ | ⟨b0, btext⟩
    · have := hgp 1 0
      rw [htext] at this
      simp only [List.length_nil, Nat.zero_add, List.cons_append,
        List.getD_cons_succ, List.getD_cons_zero] at this
      rw [this] at h1
      exact hattr h1
    · have h00 := getD_shift0 pre (recBytes f d ++ tailL) 0
      rw [h00] at h0
      rw [hrb, htext] at h0
      simp only [List.cons_append, List.getD_cons_zero] at h0
      exact hT b0 (by rw [htext]; simp) h0
  simp only [parseLoop]
  rw [if_pos hc1, if_neg hs1, if_neg hs2, hft]
  simp only []
  rw [if_neg (show ¬(f.text.length + pre.length + 4
    ≥ (pre ++ (recBytes f d ++ tailL)).length) from by rw [hlenB]; omega)]
  simp only [hgp, List.cons_append, List.getD_cons_zero, List.getD_cons_succ]
  rw [if_neg (show ¬((255:Nat) ≠ 255
      ∨ (f.marker_first ≠ M_EXPANDED ∧ f.marker_first ≠ M_COLLAPSED)) from by
    rintro (h | ⟨h1, h2⟩)
    · exact h rfl
    · rcases hmark with h3 | h3
      · exact h2 h3
      · exact h1 h3)]
  rw [if_pos (show f.text.length + pre.length + 5
    < (pre ++ (recBytes f d ++ tailL)).length from by rw [hlenB]; omega)]
  simp only [show f.text.length + pre.length - pre.length = f.text.length from by omega]
  rw [if_pos hbig]

/-- fn parse_otl rejects a serialized flat list whose first heading is
oversized with the headingTooLarge error. -/
theorem parse_otl_serialize_too_large (enc : Enc) (f : EFlat) (FL2 : List EFlat)
    (hT : ∀ b ∈ f.text, b ≠ 0xff) (hbig : f.text.length > MAX_TEXTLEN)
    (hmark : f.marker_first = M_COLLAPSED ∨ f.marker_first = M_EXPANDED)
    (hattr : f.attr ≠ 0xff) (hno : f.note = none) :
    parse_otl (MAGIC ++ PREAMBLE ++ flatsBytes (f :: FL2) 0 ++ [0x1a]) enc
      = ParseResult.err PErr.headingTooLarge := by
  have hassoc : MAGIC ++ PREAMBLE ++ flatsBytes (f :: FL2) 0 ++ [0x1a]
      = (MAGIC ++ PREAMBLE)
          ++ (recBytes f (toI16 ((f.level : Int) - 0))
            ++ (flatsBytes FL2 (f.level : Int) ++ [0x1a])) := by
    simp only [flatsBytes, List.append_assoc]
  unfold parse_otl
  simp only []
  have hb : MAGIC ++ PREAMBLE ++ flatsBytes (f :: FL2) 0 ++ [0x1a]
      = MAGIC ++ (PREAMBLE ++ (flatsBytes (f :: FL2) 0 ++ [0x1a])) := by
    simp [List.append_assoc]
  have h3 : List.take 3 (MAGIC ++ PREAMBLE ++ flatsBytes (f :: FL2) 0 ++ [0x1a])
      = MAGIC := by
    rw [hb, show (3 : Nat) = MAGIC.length from rfl]
    exact List.take_left _ _
  have hlen3 : 3 ≤ (MAGIC ++ PREAMBLE ++ flatsBytes (f :: FL2) 0 ++ [0x1a]).length := by
    simp [MAGIC, PREAMBLE, List.length_append]
  have h6 : List.take 6 (List.drop 3 (MAGIC ++ PREAMBLE ++ flatsBytes (f :: FL2) 0
      ++ [0x1a])) = PREAMBLE := by
    rw [hb, show (3 : Nat) = MAGIC.length from rfl, List.drop_left,
      show (6 : Nat) = PREAMBLE.length from rfl]
    exact List.take_left _ _
  have hlen6 : 3 + 6 ≤ (MAGIC ++ PREAMBLE ++ flatsBytes (f :: FL2) 0 ++ [0x1a]).length := by
    simp [MAGIC, PREAMBLE, List.length_append]
  simp only [h3, hlen3, h6, hlen6, eq_self_iff_true, and_self, and_true, true_and,
    if_true, ite_true]
  try rw [show (3 + 6 : Nat) = (MAGIC ++ PREAMBLE).length from rfl]
  try rw [show (9 : Nat) = (MAGIC ++ PREAMBLE).length from rfl]
  rw [hassoc]
  exact parseLoop_step_too_large enc (MAGIC ++ PREAMBLE) f _ _ _ []
    hT hbig hmark hattr hno (by simp)

theorem forall2_singleton_right {α β : Type} {R : α → β → Prop} {a : α} {L : List β}
    (h : List.Forall₂ R [a] L) : ∃ b, L = [b] ∧ R a b := by
  cases h with
  | cons hr htail =>
    cases htail
    exact ⟨_, rfl, hr⟩

/-- The serialized flat of the C1 counterexample: 524289 heading bytes
0x80, each decoding to two characters. -/
def cexF : EFlat :=
  { level := 0, attr := 0, marker_first := 0xff,
    text := List.replicate 524289 0x80, note := none }

theorem cexF_wf : EFlatWF cexF := by
  refine ⟨?_, ?_, Or.inr rfl, ?_, ?_, ?_⟩
  · intro b hb
    simp only [cexF] at hb
    have := List.eq_of_mem_replicate hb
    omega
  · rw [show cexF.text.length = 524289 from by
      simp only [cexF, List.length_replicate]]
    rw [show MAX_TEXTLEN = 1048576 from rfl]
    omega
  · simp only [cexF]
    omega
  · simp only [cexF]
    decide
  · intro nb hnb
    simp only [cexF] at hnb
    exact Option.noConfusion hnb

theorem decode_heading_replicate80 (n : Nat) :
    (decode_heading (List.replicate n 0x80)).length = 2 * n := by
  induction n with
  | zero => rfl
  | succ n ih =>
    rw [List.replicate_succ]
    simp only [decode_heading]
    rw [if_pos (by decide)]
    simp only [List.length_cons]
    omega

/-- C1 counterexample: a decodable latin1 file with a single record
whose heading byte run (high-bit spaces doubling its character count)
decodes inside the MAX_TEXTLEN guard, yet whose re-encoded form does
not decode at all: re-decoding fails with the oversized-heading error,
so no round-tripped tree exists. -/
theorem C1_roundtrip_counterexample :
    ∃ (buf : List Nat) (recs : List Rec) (t1 : List Node),
      parse_otl buf Enc.latin1 = ParseResult.ok recs
      ∧ build_tree recs = some t1
      ∧ parse_otl (serialize_tree_to_otl t1 Enc.latin1) Enc.latin1
          = ParseResult.err PErr.headingTooLarge := by
  obtain ⟨recs, hok, hcores⟩ := parse_otl_serialize Enc.latin1 [cexF]
    (by
      intro f hf
      rw [List.mem_singleton] at hf
      subst hf
      exact cexF_wf)
  rcases recs with _ | ⟨r, rest⟩
  · simp [coresFromFlats] at hcores
  · simp only [List.map_cons, coresFromFlats, List.cons.injEq] at hcores
    obtain ⟨hcore, htail⟩ := hcores
    have hrest : rest = [] := by
      rcases rest with _ | ⟨r2, rest2⟩
      · rfl
      · simp at htail
    subst hrest
    have hrtext : r.text = decode_heading (List.replicate 524289 0x80) := by
      have h := congrArg CoreRec.text hcore
      simp only [coreOf, cexF] at h
      exact h
    have hrdelta : r.delta = 0 := by
      have h := congrArg CoreRec.delta hcore
      simp only [coreOf] at h
      rw [h, show cexF.level = 0 from rfl]
      decide
    have hrnote : r.note = none := by
      have h := congrArg CoreRec.note hcore
      simp only [coreOf] at h
      exact h
    have hlen : r.text.length > MAX_TEXTLEN := by
      rw [hrtext, decode_heading_replicate80,
        show MAX_TEXTLEN = 1048576 from rfl]
      omega
    have hp : pflatsOf [r] = [⟨0, r.text, r.note⟩] := by
      unfold pflatsOf
      simp only [pflatsAux]
      rw [hrdelta]
      rw [show (0 : Int) + 0 = 0 from by omega]
      rw [if_neg (show ¬((0:Int) < 0) from by omega)]
      rw [show ((0:Int).toNat + 1) = 1 from by decide]
      simp only [List.take_succ_cons, List.take_zero, List.length_cons,
        List.length_nil]
      rw [show (1 - 1 : Nat) = 0 from rfl, List.replicate_zero, List.append_nil]
      rw [show countTrue [false] = 0 from rfl]
    obtain ⟨F, hw, hFm⟩ := forall2_singleton_right (show List.Forall₂
        (FlatMatch Enc.latin1) [(⟨0, r.text, r.note⟩ : PFlat)]
        (walkFlats (buildSp [r]) 0 Enc.latin1) from by
      have h := walkFlats_forall2 Enc.latin1 (buildSp [r]) 0
      rw [flatten_buildSp, hp] at h
      exact h)
    obtain ⟨hFlev, hFtext, hFnote⟩ := hFm
    have hmA := walkFlats_attr Enc.latin1 (buildSp [r]) 0 F (by rw [hw]; simp)
    refine ⟨_, [r], buildSp [r], hok, build_tree_eq_buildSp [r], ?_⟩
    unfold serialize_tree_to_otl
    rw [hw]
    apply parse_otl_serialize_too_large Enc.latin1 F []
    · rw [hFtext]
      intro b hbm
      have := encode_heading_lt _ b hbm
      omega
    · rw [hFtext, encode_heading_length]
      exact hlen
    · exact hmA.1
    · exact hmA.2.1
    · rw [hFnote, hrnote]
      rfl

end Otl
